import Mathlib

set_option maxRecDepth 8000

/-!
Shallow embedding of src/minesweeper/minesweeper.py: the Sentence class and
the MinesweeperAI class (the knowledge base).  Cells are integer pairs
(neighbour coordinates may leave the board, so Int rather than Nat); Python
sets of cells become Finsets; the mutable Python list of Sentence objects
becomes a list of values whose in-place mutations are position-preserving
maps.  The one runtime error the code can raise (the call to the undefined
Sentence.remove in mark_sels_as_mine_or_safe) is modelled by an Option
result.  The only nondeterminism, random.choice in make_random_move, is
modelled by exposing the deterministically built candidate list the choice
is drawn from.
-/

abbrev Cell : Type := Int × Int

/-- A fixed linear order on cells, used to iterate over a Python set copy in
a canonical (executable) order.  Which order is immaterial: the per-cell
marking operations commute at value level, and Python set order is
unspecified anyway. -/
def cellOrd (p q : Cell) : Prop :=
  p.1 < q.1 ∨ (p.1 = q.1 ∧ p.2 ≤ q.2)

instance : DecidableRel cellOrd := fun p q =>
  inferInstanceAs (Decidable (p.1 < q.1 ∨ (p.1 = q.1 ∧ p.2 ≤ q.2)))

instance : IsTotal Cell cellOrd := by
  constructor; intro p q; unfold cellOrd; omega

instance : IsTrans Cell cellOrd := by
  constructor; intro p q r; unfold cellOrd; omega

instance : IsAntisymm Cell cellOrd := by
  constructor; intro p q h1 h2
  have : p.1 = q.1 ∧ p.2 = q.2 := by unfold cellOrd at h1 h2; omega
  exact Prod.ext this.1 this.2

instance : IsRefl Cell cellOrd := by
  constructor; intro p; unfold cellOrd; omega

/-- Sorting a multiset of cells by structurally recursive insertion sort, so
that the kernel can evaluate it (merge sort is well-founded recursion and
does not reduce). -/
def sortCellM (m : Multiset Cell) : List Cell :=
  Quot.liftOn m (fun l => l.insertionSort cellOrd) fun l1 l2 h =>
    List.eq_of_perm_of_sorted
      (((List.perm_insertionSort cellOrd l1).trans h).trans
        (List.perm_insertionSort cellOrd l2).symm)
      (List.sorted_insertionSort cellOrd l1)
      (List.sorted_insertionSort cellOrd l2)

/-- Iteration over a copy of a Python cell set, in canonical order. -/
def cellList (s : Finset Cell) : List Cell :=
  sortCellM s.val

/-- The Sentence class: a cell set with a mine count, plus the two
accumulator sets that mark_mine and mark_safe fill in. -/
structure Sentence where
  cells : Finset Cell
  count : Int
  known_mine_set : Finset Cell
  known_safe_set : Finset Cell
deriving DecidableEq

/-- Python Sentence.__eq__: two sentences are equal iff their cell sets and
counts agree; the accumulator sets are ignored. -/
def Sentence.eqv (s t : Sentence) : Prop :=
  s.cells = t.cells ∧ s.count = t.count

instance (s t : Sentence) : Decidable (s.eqv t) :=
  inferInstanceAs (Decidable (s.cells = t.cells ∧ s.count = t.count))

/-- Boolean form of Sentence.__eq__, used inside the executable code. -/
def Sentence.beqv (s t : Sentence) : Bool :=
  decide (s.eqv t)

/-- Sentence.mark_mine: if the cell is present, record it as a known mine,
remove it from the cell set and decrement the count; otherwise no-op. -/
def Sentence.mark_mine (s : Sentence) (c : Cell) : Sentence :=
  if c ∈ s.cells then
    { cells := s.cells.erase c
      count := s.count - 1
      known_mine_set := insert c s.known_mine_set
      known_safe_set := s.known_safe_set }
  else s

/-- Sentence.mark_safe: if the cell is present, record it as known safe and
remove it from the cell set; the count is unchanged. -/
def Sentence.mark_safe (s : Sentence) (c : Cell) : Sentence :=
  if c ∈ s.cells then
    { cells := s.cells.erase c
      count := s.count
      known_mine_set := s.known_mine_set
      known_safe_set := insert c s.known_safe_set }
  else s

/-- Sentence.known_mines: when len(cells) == count it calls mark_mine on a
copy of every cell, then returns the known-mine set.  The returned pair is
(return value, sentence after the call). -/
def Sentence.known_mines (s : Sentence) : Finset Cell × Sentence :=
  let s1 := if (s.cells.card : Int) = s.count
    then (cellList s.cells).foldl Sentence.mark_mine s
    else s
  (s1.known_mine_set, s1)

/-- Sentence.known_safes: when count == 0 it calls mark_safe on a copy of
every cell, then returns the known-safe set. -/
def Sentence.known_safes (s : Sentence) : Finset Cell × Sentence :=
  let s1 := if s.count = 0
    then (cellList s.cells).foldl Sentence.mark_safe s
    else s
  (s1.known_safe_set, s1)

/-- The MinesweeperAI class state: board dimensions, the three fact sets and
the knowledge list. -/
structure MinesweeperAI where
  height : Nat
  width : Nat
  moves_made : Finset Cell
  mines : Finset Cell
  safes : Finset Cell
  knowledge : List Sentence
deriving DecidableEq

/-- MinesweeperAI.__init__. -/
def initialAI (height width : Nat) : MinesweeperAI :=
  { height := height, width := width
    moves_made := ∅, mines := ∅, safes := ∅, knowledge := [] }

/-- In-bounds test 0 <= i < height and 0 <= j < width. -/
def cellInBounds (height width : Nat) (p : Cell) : Prop :=
  0 ≤ p.1 ∧ p.1 < (height : Int) ∧ 0 ≤ p.2 ∧ p.2 < (width : Int)

instance (height width : Nat) (p : Cell) : Decidable (cellInBounds height width p) :=
  inferInstanceAs
    (Decidable (0 ≤ p.1 ∧ p.1 < (height : Int) ∧ 0 ≤ p.2 ∧ p.2 < (width : Int)))

def MinesweeperAI.inBounds (st : MinesweeperAI) (p : Cell) : Prop :=
  cellInBounds st.height st.width p

instance (st : MinesweeperAI) (p : Cell) : Decidable (st.inBounds p) :=
  inferInstanceAs (Decidable (cellInBounds st.height st.width p))

/-- MinesweeperAI.mark_mine: add the cell to mines and run
Sentence.mark_mine on every sentence. -/
def MinesweeperAI.mark_mine (st : MinesweeperAI) (c : Cell) : MinesweeperAI :=
  { st with mines := insert c st.mines
            knowledge := st.knowledge.map fun s => s.mark_mine c }

/-- MinesweeperAI.mark_safe: add the cell to safes and run
Sentence.mark_safe on every sentence. -/
def MinesweeperAI.mark_safe (st : MinesweeperAI) (c : Cell) : MinesweeperAI :=
  { st with safes := insert c st.safes
            knowledge := st.knowledge.map fun s => s.mark_safe c }

/-- list.remove with Python == semantics guarded by an `in` test: drop the
first element __eq__-equal to v, if any. -/
def removeFirstEqv : List Sentence → Sentence → List Sentence
  | [], _ => []
  | s :: rest, v => if s.beqv v then rest else s :: removeFirstEqv rest v

/-- One iteration of the marking loop in mark_sels_as_mine_or_safe, acting on
the sentence at position idx.  The accumulator is the evolving state plus the
list of positions queued for removal (sentences_to_remove holds object
references; positions are stable because the pass never inserts or deletes).
An empty cell set queues the sentence; a sentence with count == len(cells)
and count != 0 marks every cell (a snapshot) as a mine globally and queues
the sentence; afterwards (a second if, not an elif, reading the object as
mutated by the marking) a count of 0 marks every remaining cell safe
globally and queues the sentence. -/
def passMineStage (st : MinesweeperAI) (s : Sentence) : MinesweeperAI :=
  if (s.cells.card : Int) = s.count ∧ s.count ≠ 0
  then (cellList s.cells).foldl MinesweeperAI.mark_mine st
  else st

def passSafeStage (st : MinesweeperAI) (s1 : Sentence) : MinesweeperAI :=
  if s1.count = 0 then (cellList s1.cells).foldl MinesweeperAI.mark_safe st
  else st

def passStepState (st : MinesweeperAI) (idx : Nat) : MinesweeperAI :=
  match st.knowledge[idx]? with
  | none => st
  | some s =>
    if s.cells = ∅ then st
    else
      passSafeStage (passMineStage st s)
        (((passMineStage st s).knowledge[idx]?).getD s)

/-- The removal queue added by one iteration of the marking loop (the same
branch conditions as passStepState; a sentence caught by both the mine and
the safe branch is queued twice, as in the source). -/
def passStepRem (st : MinesweeperAI) (rem : List Nat) (idx : Nat) : List Nat :=
  match st.knowledge[idx]? with
  | none => rem
  | some s =>
    if s.cells = ∅ then rem ++ [idx]
    else
      let rem1 := if (s.cells.card : Int) = s.count ∧ s.count ≠ 0
        then rem ++ [idx] else rem
      if (((passMineStage st s).knowledge[idx]?).getD s).count = 0 then rem1 ++ [idx]
      else rem1

def passStep (acc : MinesweeperAI × List Nat) (idx : Nat) : MinesweeperAI × List Nat :=
  (passStepState acc.1 idx, passStepRem acc.1 acc.2 idx)

/-- The marking loop of mark_sels_as_mine_or_safe over a copy of the
knowledge list. -/
def markSelsPass (st : MinesweeperAI) : MinesweeperAI × List Nat :=
  (List.range st.knowledge.length).foldl passStep (st, ([] : List Nat))

/-- The state after the removal loop: each queued object's value after the
whole pass is looked up and the first __eq__-equal list entry, if any, is
removed. -/
def markSelsRemoved (st : MinesweeperAI) : MinesweeperAI :=
  { (markSelsPass st).1 with
    knowledge :=
      (((markSelsPass st).2.filterMap fun idx => (markSelsPass st).1.knowledge[idx]?).foldl
        removeFirstEqv (markSelsPass st).1.knowledge) }

/-- MinesweeperAI.mark_sels_as_mine_or_safe: the marking loop, the removal
loop, then the final purge loop, which calls the undefined method
Sentence.remove - hence raises AttributeError - as soon as any sentence
still holds a cell in mines.  The crash is the none result. -/
def MinesweeperAI.mark_sels_as_mine_or_safe (st : MinesweeperAI) : Option MinesweeperAI :=
  if (markSelsRemoved st).knowledge.all fun s =>
      decide (s.cells ∩ (markSelsRemoved st).mines = ∅)
  then some (markSelsRemoved st) else none

/-- The 9 coordinates scanned by the nested neighbour loops of
add_knowledge, in iteration order (the centre cell included; the loop body
skips it). -/
def neighbors9 (cell : Cell) : List Cell :=
  [(cell.1 - 1, cell.2 - 1), (cell.1 - 1, cell.2), (cell.1 - 1, cell.2 + 1),
   (cell.1, cell.2 - 1), (cell.1, cell.2), (cell.1, cell.2 + 1),
   (cell.1 + 1, cell.2 - 1), (cell.1 + 1, cell.2), (cell.1 + 1, cell.2 + 1)]

/-- The body of the neighbour loop in add_knowledge: skip the cell itself and
known safes; a known mine decrements the working count and is skipped; an
in-bounds remaining coordinate joins new_cells.  (The bounds test comes after
the safes and mines tests, exactly as in the source.) -/
def neighborStep (st : MinesweeperAI) (cell : Cell) (acc : Finset Cell × Int)
    (p : Cell) : Finset Cell × Int :=
  if p = cell ∨ p ∈ st.safes then acc
  else if p ∈ st.mines then (acc.1, acc.2 - 1)
  else if st.inBounds p then (insert p acc.1, acc.2)
  else acc

/-- Steps 1-4 of add_knowledge: record the move, mark the cell safe
globally, build the neighbour sentence and append it when no __eq__-equal
sentence is present, then delete the revealed cell from every sentence's
cell set directly (count and accumulator sets untouched). -/
def MinesweeperAI.withMove (st : MinesweeperAI) (cell : Cell) : MinesweeperAI :=
  { st with moves_made := insert cell st.moves_made }

/-- The neighbour sentence built by add_knowledge over the current safes and
mines (the first pair component is new_cells, the second the adjusted
count). -/
def MinesweeperAI.newSentenceFor (st : MinesweeperAI) (cell : Cell)
    (count : Int) : Sentence :=
  { cells := ((neighbors9 cell).foldl (neighborStep st cell) (∅, count)).1
    count := ((neighbors9 cell).foldl (neighborStep st cell) (∅, count)).2
    known_mine_set := ∅, known_safe_set := ∅ }

/-- Append the sentence unless an __eq__-equal one is already present. -/
def MinesweeperAI.appendIfNew (st : MinesweeperAI) (ns : Sentence) : MinesweeperAI :=
  if st.knowledge.any fun s => s.beqv ns then st
  else { st with knowledge := st.knowledge ++ [ns] }

/-- Delete the revealed cell from every sentence cell set directly (count
and accumulator sets untouched). -/
def MinesweeperAI.purgeCell (st : MinesweeperAI) (cell : Cell) : MinesweeperAI :=
  { st with knowledge := st.knowledge.map fun s => { s with cells := s.cells.erase cell } }

def MinesweeperAI.addKnowledgeStage1 (st : MinesweeperAI) (cell : Cell)
    (count : Int) : MinesweeperAI :=
  MinesweeperAI.purgeCell
    (MinesweeperAI.appendIfNew ((st.withMove cell).mark_safe cell)
      (((st.withMove cell).mark_safe cell).newSentenceFor cell count))
    cell

/-- The body of the subset-resolution double loop for one ordered pair:
skip __eq__-equal sentences and pairs of equal cell-set size; otherwise a
subset one way or the other yields the difference sentence. -/
def resolvePair (s t : Sentence) : List Sentence :=
  if s.eqv t ∨ s.cells.card = t.cells.card then []
  else if s.cells ⊆ t.cells then
    [{ cells := t.cells \ s.cells, count := t.count - s.count
       known_mine_set := ∅, known_safe_set := ∅ }]
  else if t.cells ⊆ s.cells then
    [{ cells := s.cells \ t.cells, count := s.count - t.count
       known_mine_set := ∅, known_safe_set := ∅ }]
  else []

/-- The new_sentences list built by the resolution loops, in append order. -/
def resolutionList (kb : List Sentence) : List Sentence :=
  kb.flatMap fun s => kb.flatMap fun t => resolvePair s t

/-- The unconditional knowledge.extend(new_sentences): the guard in the
source tests the truthiness of the step-3 sentence object, which is always
true. -/
def MinesweeperAI.addKnowledgeResolved (st : MinesweeperAI) : MinesweeperAI :=
  { st with knowledge := st.knowledge ++ resolutionList st.knowledge }

/-- MinesweeperAI.add_knowledge: stages 1-4, a first
mark_sels_as_mine_or_safe pass, the resolution extend, and a second pass. -/
def MinesweeperAI.add_knowledge (st : MinesweeperAI) (cell : Cell)
    (count : Int) : Option MinesweeperAI :=
  ((st.addKnowledgeStage1 cell count).mark_sels_as_mine_or_safe).bind
    fun st1 => st1.addKnowledgeResolved.mark_sels_as_mine_or_safe

/-- MinesweeperAI.make_random_move builds this candidate list in row-major
order and returns random.choice of it when non-empty, None otherwise. -/
def MinesweeperAI.make_random_move_candidates (st : MinesweeperAI) : List Cell :=
  (List.range st.height).flatMap fun (i : Nat) =>
    (List.range st.width).filterMap fun (j : Nat) =>
      if ((i : Int), (j : Int)) ∉ st.moves_made ∧ ((i : Int), (j : Int)) ∉ st.mines
      then some ((i : Int), (j : Int)) else none

/-- States reachable from a fresh MinesweeperAI through the public mutators,
with arbitrary arguments. -/
inductive Reachable : MinesweeperAI → Prop
  | start (height width : Nat) : Reachable (initialAI height width)
  | mark_mine {st : MinesweeperAI} (c : Cell) :
      Reachable st → Reachable (st.mark_mine c)
  | mark_safe {st : MinesweeperAI} (c : Cell) :
      Reachable st → Reachable (st.mark_safe c)
  | add_knowledge {st st' : MinesweeperAI} (c : Cell) (n : Int) :
      Reachable st → st.add_knowledge c n = some st' → Reachable st'

/-- Reachability restricted to calls that never directly contradict already
derived facts: mark_mine is not called on a cell currently known safe,
mark_safe is not called on a cell currently known to be a mine, and
add_knowledge does not reveal a cell currently known to be a mine. -/
inductive ReachableG : MinesweeperAI → Prop
  | start (height width : Nat) : ReachableG (initialAI height width)
  | mark_mine {st : MinesweeperAI} (c : Cell) (hc : c ∉ st.safes) :
      ReachableG st → ReachableG (st.mark_mine c)
  | mark_safe {st : MinesweeperAI} (c : Cell) (hc : c ∉ st.mines) :
      ReachableG st → ReachableG (st.mark_safe c)
  | add_knowledge {st st' : MinesweeperAI} (c : Cell) (n : Int) (hc : c ∉ st.mines) :
      ReachableG st → st.add_knowledge c n = some st' → ReachableG st'

/-- The in-bounds 8-neighbourhood of a cell, as scanned by the source. -/
def nbhd8 (height width : Nat) (c : Cell) : Finset Cell :=
  ((neighbors9 c).filter fun p => decide (p ≠ c ∧ cellInBounds height width p)).toFinset

/-- The true nearby-mine count of a cell against a ground-truth mine set M,
as Minesweeper.nearby_mines computes it: the number of in-bounds neighbours
of the cell that carry a mine. -/
def consistentCount (M : Finset Cell) (st : MinesweeperAI) (c : Cell) : Int :=
  ((nbhd8 st.height st.width c ∩ M).card : Int)

/-- Reachability under the caller contract of the spec: a fixed in-bounds
ground-truth mine set M, every revealed cell is not a mine and comes with
its true nearby-mine count, external marking calls agree with M. -/
inductive ReachableC (M : Finset Cell) : MinesweeperAI → Prop
  | start (height width : Nat) (hM : ∀ p ∈ M, cellInBounds height width p) :
      ReachableC M (initialAI height width)
  | mark_mine {st : MinesweeperAI} (c : Cell) (hc : c ∈ M) :
      ReachableC M st → ReachableC M (st.mark_mine c)
  | mark_safe {st : MinesweeperAI} (c : Cell) (hc : c ∉ M) :
      ReachableC M st → ReachableC M (st.mark_safe c)
  | add_knowledge {st st' : MinesweeperAI} (c : Cell) (hc : c ∉ M) :
      ReachableC M st → st.add_knowledge c (consistentCount M st c) = some st' →
      ReachableC M st'

/-- Every sentence cell is still of unknown status: in neither mines nor
safes. -/
def SentInv (st : MinesweeperAI) : Prop :=
  ∀ s ∈ st.knowledge, s.cells ∩ st.mines = ∅ ∧ s.cells ∩ st.safes = ∅

instance (st : MinesweeperAI) : Decidable (SentInv st) :=
  inferInstanceAs
    (Decidable (∀ s ∈ st.knowledge, s.cells ∩ st.mines = ∅ ∧ s.cells ∩ st.safes = ∅))

/-- The invariant used for the caller-contract reachability: the board has a
ground truth M of in-bounds mines, the derived facts agree with it, and
every sentence counts exactly its cells that are true mines. -/
def ConsInv (M : Finset Cell) (st : MinesweeperAI) : Prop :=
  (∀ p ∈ M, cellInBounds st.height st.width p) ∧
  st.mines ⊆ M ∧ st.safes ∩ M = ∅ ∧ SentInv st ∧
  ∀ s ∈ st.knowledge, ((s.cells ∩ M).card : Int) = s.count

/-- The claim-C2 fixpoint property: no empty sentence, no zero-count
sentence with cells left, no all-mine sentence, survives add_knowledge. -/
def atFixpoint (st : MinesweeperAI) : Prop :=
  ∀ s ∈ st.knowledge, s.cells ≠ ∅ ∧ ¬(s.count = 0 ∧ s.cells ≠ ∅) ∧
    ¬((s.cells.card : Int) = s.count ∧ 0 < s.count)

instance (st : MinesweeperAI) : Decidable (atFixpoint st) :=
  inferInstanceAs
    (Decidable (∀ s ∈ st.knowledge, s.cells ≠ ∅ ∧ ¬(s.count = 0 ∧ s.cells ≠ ∅) ∧
      ¬((s.cells.card : Int) = s.count ∧ 0 < s.count)))

/-- A concrete 4x4 run: six external mark_safe calls followed by three
add_knowledge calls.  Its final state refutes the two-pass fixpoint claim
and exhibits duplicate sentences introduced by resolution. -/
def demoSeed : MinesweeperAI :=
  ((((((initialAI 4 4).mark_safe (0, 0)).mark_safe (0, 2)).mark_safe
    (1, 1)).mark_safe (3, 1)).mark_safe (2, 2)).mark_safe (3, 2)

def demo1 : MinesweeperAI := (demoSeed.add_knowledge (0, 1) 1).getD demoSeed

def demo2 : MinesweeperAI := (demo1.add_knowledge (2, 0) 2).getD demo1

def demo3 : MinesweeperAI := (demo2.add_knowledge (3, 1) 1).getD demo2

/-- The state of the demo run midway through the third add_knowledge call,
after the first simplification pass, just before resolution. -/
def demoMid : Option MinesweeperAI :=
  ((demo2.addKnowledgeStage1 (3, 1) 1).mark_sels_as_mine_or_safe)

def demoMidState : MinesweeperAI := demoMid.getD demo2

/-- Scenario 3 of the spec: one reveal in the centre of a fresh 3x3 board. -/
def scenario3 : Option MinesweeperAI := (initialAI 3 3).add_knowledge (1, 1) 1

def scenario3State : MinesweeperAI := scenario3.getD (initialAI 3 3)

/-- Claim C4's counterexample state: mark a cell safe, then mark the same
cell a mine. -/
def c4Bad : MinesweeperAI := ((initialAI 2 2).mark_safe (0, 0)).mark_mine (0, 0)

/-- Claim C5's counterexample state: one reveal with an inconsistent count. -/
def c5Bad : MinesweeperAI :=
  ((initialAI 1 2).add_knowledge (0, 0) (-1)).getD (initialAI 1 2)

/-- A consistent reveal on a 2x2 board whose only mine is (1,1). -/
def c5Good : MinesweeperAI :=
  ((initialAI 2 2).add_knowledge (0, 0)
    (consistentCount {((1 : Int), (1 : Int))} (initialAI 2 2) (0, 0))).getD
    (initialAI 2 2)

/-! ## General helpers -/

theorem foldl_induction {α β : Type} (f : β → α → β) (P : β → Prop) :
    ∀ (L : List α) (b : β), P b → (∀ b a, a ∈ L → P b → P (f b a)) →
    P (L.foldl f b) := by
  intro L
  induction L with
  | nil => intro b hb _; exact hb
  | cons a L ih =>
    intro b hb hstep
    exact ih (f b a) (hstep b a (List.mem_cons_self a L) hb)
      fun b x hx hb => hstep b x (List.mem_cons_of_mem a hx) hb

theorem coe_sortCellM (m : Multiset Cell) : (sortCellM m : Multiset Cell) = m :=
  Quot.inductionOn m fun l => Quot.sound (List.perm_insertionSort cellOrd l)

theorem coe_cellList (s : Finset Cell) : (cellList s : Multiset Cell) = s.val :=
  coe_sortCellM s.val

theorem nodup_cellList (s : Finset Cell) : (cellList s).Nodup := by
  have := coe_cellList s
  rw [← Multiset.coe_nodup, this]
  exact s.nodup

theorem mem_cellList {s : Finset Cell} {c : Cell} : c ∈ cellList s ↔ c ∈ s := by
  rw [← Multiset.mem_coe, coe_cellList]
  exact Iff.rfl

theorem toFinset_cellList (s : Finset Cell) : (cellList s).toFinset = s := by
  ext c
  rw [List.mem_toFinset, mem_cellList]

theorem length_cellList (s : Finset Cell) : (cellList s).length = s.card := by
  have := congrArg Multiset.card (coe_cellList s)
  simpa using this

/-! ## Sentence-level lemmas -/

theorem sentence_mark_mine_mem {t : Sentence} {c : Cell} (hc : c ∈ t.cells) :
    t.mark_mine c =
      { cells := t.cells.erase c, count := t.count - 1
        known_mine_set := insert c t.known_mine_set
        known_safe_set := t.known_safe_set } := by
  unfold Sentence.mark_mine; rw [if_pos hc]

theorem sentence_mark_mine_not_mem {t : Sentence} {c : Cell} (hc : c ∉ t.cells) :
    t.mark_mine c = t := by
  unfold Sentence.mark_mine; rw [if_neg hc]

theorem sentence_mark_safe_mem {t : Sentence} {c : Cell} (hc : c ∈ t.cells) :
    t.mark_safe c =
      { cells := t.cells.erase c, count := t.count
        known_mine_set := t.known_mine_set
        known_safe_set := insert c t.known_safe_set } := by
  unfold Sentence.mark_safe; rw [if_pos hc]

theorem sentence_mark_safe_not_mem {t : Sentence} {c : Cell} (hc : c ∉ t.cells) :
    t.mark_safe c = t := by
  unfold Sentence.mark_safe; rw [if_neg hc]

theorem foldl_sentence_mark_mine (L : List Cell) :
    ∀ t : Sentence, L.Nodup → (∀ c ∈ L, c ∈ t.cells) →
    L.foldl Sentence.mark_mine t =
      { cells := t.cells \ L.toFinset
        count := t.count - L.length
        known_mine_set := t.known_mine_set ∪ L.toFinset
        known_safe_set := t.known_safe_set } := by
  induction L with
  | nil =>
    intro t _ _
    cases t
    simp
  | cons c L ih =>
    intro t hnd hmem
    have hc : c ∈ t.cells := hmem c (List.mem_cons_self c L)
    have hnd2 := List.nodup_cons.mp hnd
    rw [List.foldl_cons, sentence_mark_mine_mem hc,
      ih _ hnd2.2 (fun x hx => Finset.mem_erase.mpr
        ⟨fun hxc => hnd2.1 (by rw [hxc] at hx; exact hx),
         hmem x (List.mem_cons_of_mem c hx)⟩)]
    have hcells : t.cells.erase c \ L.toFinset = t.cells \ (c :: L).toFinset := by
      rw [Finset.erase_eq, List.toFinset_cons, Finset.insert_eq, sdiff_sdiff_left,
        Finset.sup_eq_union]
    have hkms : insert c t.known_mine_set ∪ L.toFinset =
        t.known_mine_set ∪ (c :: L).toFinset := by
      rw [List.toFinset_cons, Finset.insert_union, Finset.union_insert]
    simp only [hcells, hkms, List.length_cons]
    congr 1
    push_cast
    ring

theorem foldl_sentence_mark_safe (L : List Cell) :
    ∀ t : Sentence, L.Nodup → (∀ c ∈ L, c ∈ t.cells) →
    L.foldl Sentence.mark_safe t =
      { cells := t.cells \ L.toFinset
        count := t.count
        known_mine_set := t.known_mine_set
        known_safe_set := t.known_safe_set ∪ L.toFinset } := by
  induction L with
  | nil =>
    intro t _ _
    cases t
    simp
  | cons c L ih =>
    intro t hnd hmem
    have hc : c ∈ t.cells := hmem c (List.mem_cons_self c L)
    have hnd2 := List.nodup_cons.mp hnd
    rw [List.foldl_cons, sentence_mark_safe_mem hc,
      ih _ hnd2.2 (fun x hx => Finset.mem_erase.mpr
        ⟨fun hxc => hnd2.1 (by rw [hxc] at hx; exact hx),
         hmem x (List.mem_cons_of_mem c hx)⟩)]
    have hcells : t.cells.erase c \ L.toFinset = t.cells \ (c :: L).toFinset := by
      rw [Finset.erase_eq, List.toFinset_cons, Finset.insert_eq, sdiff_sdiff_left,
        Finset.sup_eq_union]
    have hkss : insert c t.known_safe_set ∪ L.toFinset =
        t.known_safe_set ∪ (c :: L).toFinset := by
      rw [List.toFinset_cons, Finset.insert_union, Finset.union_insert]
    simp only [hcells, hkss]

theorem known_mines_spec (s : Sentence) (h : (s.cells.card : Int) = s.count) :
    s.known_mines =
      (s.known_mine_set ∪ s.cells,
       { cells := ∅, count := 0
         known_mine_set := s.known_mine_set ∪ s.cells
         known_safe_set := s.known_safe_set }) := by
  unfold Sentence.known_mines
  rw [if_pos h, foldl_sentence_mark_mine _ _ (nodup_cellList _)
    (fun c hc => mem_cellList.mp hc)]
  simp only [toFinset_cellList, length_cellList, Finset.sdiff_self]
  rw [← h]
  norm_num

theorem known_mines_not_triggered (s : Sentence) (h : (s.cells.card : Int) ≠ s.count) :
    s.known_mines = (s.known_mine_set, s) := by
  unfold Sentence.known_mines
  rw [if_neg h]

theorem known_safes_spec (s : Sentence) (h : s.count = 0) :
    s.known_safes =
      (s.known_safe_set ∪ s.cells,
       { cells := ∅, count := s.count
         known_mine_set := s.known_mine_set
         known_safe_set := s.known_safe_set ∪ s.cells }) := by
  unfold Sentence.known_safes
  rw [if_pos h, foldl_sentence_mark_safe _ _ (nodup_cellList _)
    (fun c hc => mem_cellList.mp hc)]
  simp only [toFinset_cellList, Finset.sdiff_self]

theorem known_safes_not_triggered (s : Sentence) (h : s.count ≠ 0) :
    s.known_safes = (s.known_safe_set, s) := by
  unfold Sentence.known_safes
  rw [if_neg h]

/-! ## Claim C1 -/

/-- C1, counterexample: known_mines and known_safes are not read-only.  On
the sentence with cell set {(0,0)} and count 1, known_mines empties the cell
set and zeroes the count; on count 0 known_safes empties the cell set. -/
theorem c1_counterexample :
    (Sentence.known_mines
        { cells := {((0 : Int), (0 : Int))}, count := 1
          known_mine_set := ∅, known_safe_set := ∅ }).2.cells ≠
      {((0 : Int), (0 : Int))} ∧
    (Sentence.known_safes
        { cells := {((0 : Int), (0 : Int))}, count := 0
          known_mine_set := ∅, known_safe_set := ∅ }).2.cells ≠
      {((0 : Int), (0 : Int))} := by
  decide

/-- C1, amended: known_mines and known_safes leave the sentence's cell set
and count unchanged whenever their trigger condition fails (count different
from len(cells) for known_mines, count nonzero for known_safes); when the
condition holds they instead move every cell into the corresponding known
set and empty the cell set, known_mines also zeroing the count. -/
theorem c1_queries_mutate_when_triggered :
    (∀ s : Sentence, (s.cells.card : Int) ≠ s.count → (s.known_mines).2 = s) ∧
    (∀ s : Sentence, s.count ≠ 0 → (s.known_safes).2 = s) ∧
    (∀ s : Sentence, (s.cells.card : Int) = s.count →
      (s.known_mines).2.cells = ∅ ∧ (s.known_mines).2.count = 0 ∧
      (s.known_mines).2.known_mine_set = s.known_mine_set ∪ s.cells ∧
      (s.known_mines).1 = s.known_mine_set ∪ s.cells) ∧
    (∀ s : Sentence, s.count = 0 →
      (s.known_safes).2.cells = ∅ ∧ (s.known_safes).2.count = 0 ∧
      (s.known_safes).2.known_safe_set = s.known_safe_set ∪ s.cells ∧
      (s.known_safes).1 = s.known_safe_set ∪ s.cells) := by
  refine ⟨fun s h => ?_, fun s h => ?_, fun s h => ?_, fun s h => ?_⟩
  · rw [known_mines_not_triggered s h]
  · rw [known_safes_not_triggered s h]
  · rw [known_mines_spec s h]; exact ⟨rfl, rfl, rfl, rfl⟩
  · rw [known_safes_spec s h]; exact ⟨rfl, h, rfl, rfl⟩

/-- C1, witness for the amended theorem at concrete sentences. -/
theorem c1_queries_mutate_when_triggered_witness :
    (Sentence.known_mines
        { cells := {((0 : Int), (0 : Int))}, count := 2
          known_mine_set := ∅, known_safe_set := ∅ }).2 =
      { cells := {((0 : Int), (0 : Int))}, count := 2
        known_mine_set := ∅, known_safe_set := ∅ } ∧
    (Sentence.known_safes
        { cells := {((0 : Int), (0 : Int))}, count := 2
          known_mine_set := ∅, known_safe_set := ∅ }).2 =
      { cells := {((0 : Int), (0 : Int))}, count := 2
        known_mine_set := ∅, known_safe_set := ∅ } ∧
    (Sentence.known_mines
        { cells := {((0 : Int), (0 : Int))}, count := 1
          known_mine_set := ∅, known_safe_set := ∅ }).2.cells = ∅ ∧
    (Sentence.known_safes
        { cells := {((0 : Int), (0 : Int))}, count := 0
          known_mine_set := ∅, known_safe_set := ∅ }).2.cells = ∅ :=
  ⟨c1_queries_mutate_when_triggered.1 _ (by decide),
   c1_queries_mutate_when_triggered.2.1 _ (by decide),
   (c1_queries_mutate_when_triggered.2.2.1 _ (by decide)).1,
   (c1_queries_mutate_when_triggered.2.2.2 _ (by decide)).1⟩

/-! ## Resolution characterization -/

theorem mem_resolvePair {s t u : Sentence} :
    u ∈ resolvePair s t ↔
      ((s.cells ⊂ t.cells ∧
          u = { cells := t.cells \ s.cells, count := t.count - s.count
                known_mine_set := ∅, known_safe_set := ∅ }) ∨
       (t.cells ⊂ s.cells ∧
          u = { cells := s.cells \ t.cells, count := s.count - t.count
                known_mine_set := ∅, known_safe_set := ∅ })) := by
  unfold resolvePair
  split_ifs with h1 h2 h3
  · simp only [List.not_mem_nil, false_iff]
    rintro (⟨hss, _⟩ | ⟨hss, _⟩)
    · rcases h1 with heqv | hcard
      · exact hss.ne heqv.1
      · exact absurd hcard (Finset.card_lt_card hss).ne
    · rcases h1 with heqv | hcard
      · exact hss.ne heqv.1.symm
      · exact absurd hcard.symm (Finset.card_lt_card hss).ne
  · have hcard : s.cells.card ≠ t.cells.card := fun hc => h1 (Or.inr hc)
    have hss : s.cells ⊂ t.cells :=
      HasSubset.Subset.ssubset_of_ne h2 fun hc => hcard (by rw [hc])
    simp only [List.mem_singleton]
    constructor
    · intro hu; exact Or.inl ⟨hss, hu⟩
    · rintro (⟨_, hu⟩ | ⟨hts, _⟩)
      · exact hu
      · exact absurd (hts.trans_subset h2) (ssubset_irrefl _)
  · have hcard : s.cells.card ≠ t.cells.card := fun hc => h1 (Or.inr hc)
    have hts : t.cells ⊂ s.cells :=
      HasSubset.Subset.ssubset_of_ne h3 fun hc => hcard (by rw [hc])
    simp only [List.mem_singleton]
    constructor
    · intro hu; exact Or.inr ⟨hts, hu⟩
    · rintro (⟨hss, _⟩ | ⟨_, hu⟩)
      · exact absurd (hss.trans_subset h3) (ssubset_irrefl _)
      · exact hu
  · simp only [List.not_mem_nil, false_iff]
    rintro (⟨hss, _⟩ | ⟨hss, _⟩)
    · exact h2 hss.subset
    · exact h3 hss.subset

theorem mem_resolutionList {kb : List Sentence} {u : Sentence} :
    u ∈ resolutionList kb ↔
      ∃ s ∈ kb, ∃ t ∈ kb, s.cells ⊂ t.cells ∧
        u = { cells := t.cells \ s.cells, count := t.count - s.count
              known_mine_set := ∅, known_safe_set := ∅ } := by
  unfold resolutionList
  simp only [List.mem_flatMap, mem_resolvePair]
  constructor
  · rintro ⟨s, hs, t, ht, (⟨hss, hu⟩ | ⟨hss, hu⟩)⟩
    · exact ⟨s, hs, t, ht, hss, hu⟩
    · exact ⟨t, ht, s, hs, hss, hu⟩
  · rintro ⟨s, hs, t, ht, hss, hu⟩
    exact ⟨s, hs, t, ht, Or.inl ⟨hss, hu⟩⟩

/-! ## Reachability of the demo run -/

theorem reachable_demoSeed : Reachable demoSeed :=
  Reachable.mark_safe _ (Reachable.mark_safe _ (Reachable.mark_safe _
    (Reachable.mark_safe _ (Reachable.mark_safe _ (Reachable.mark_safe _
      (Reachable.start 4 4))))))

theorem reachable_demo1 : Reachable demo1 :=
  Reachable.add_knowledge (0, 1) 1 reachable_demoSeed
    (show demoSeed.add_knowledge (0, 1) 1 = some demo1 by decide)

theorem reachable_demo2 : Reachable demo2 :=
  Reachable.add_knowledge (2, 0) 2 reachable_demo1
    (show demo1.add_knowledge (2, 0) 2 = some demo2 by decide)

/-! ## Claim C2 -/

/-- C2: refuted by a concrete reachable run.  From the reachable state demo2
(a 4x4 board with two prior reveals), add_knowledge((3,1), 1) returns a
knowledge base that still contains a sentence with count 0 and a non-empty
cell set (namely the sentence over cell (1,2)), so the simplification pass
has not reached a fixpoint: one further pass would mark (1,2) safe.  The
spec (sections 4.3 and 9) demands repetition to fixpoint, while the source
performs exactly two passes; the code is the slip. -/
theorem c2_two_passes_miss_fixpoint :
    Reachable demo2 ∧ demo2.add_knowledge (3, 1) 1 = some demo3 ∧
    ¬ atFixpoint demo3 :=
  ⟨reachable_demo2, by decide, by decide⟩

/-! ## Claim C3 -/

/-- C3, counterexample: in the third add_knowledge call of the demo run the
resolution step derives the sentence over {(1,0)} with count 1 twice (once
for each orientation of the subset pair) and appends both copies without any
presence test, so a sentence equal to one already in the knowledge base is
introduced.  The final conjunct pins down that add_knowledge really extends
the knowledge base with the whole unfiltered derived list before the second
pass. -/
theorem c3_counterexample :
    Reachable demo2 ∧ demoMid = some demoMidState ∧
    demoMidState.knowledge.countP
      (fun u => u.beqv { cells := {((1 : Int), (0 : Int))}, count := 1
                         known_mine_set := ∅, known_safe_set := ∅ }) = 0 ∧
    (resolutionList demoMidState.knowledge).countP
      (fun u => u.beqv { cells := {((1 : Int), (0 : Int))}, count := 1
                         known_mine_set := ∅, known_safe_set := ∅ }) = 2 ∧
    demo2.add_knowledge (3, 1) 1 =
      demoMidState.addKnowledgeResolved.mark_sels_as_mine_or_safe :=
  ⟨reachable_demo2, by decide, by decide, by decide, by decide⟩

/-- C3, amended: the derived sentences of the resolution step are exactly
the set-difference sentences with count difference, one for each ordered
pair of active sentences whose cell sets are in strict inclusion; but each
derived sentence is appended to the knowledge base unconditionally (the
presence test of the claim does not exist: the guard in the source tests the
truthiness of the step-3 sentence object), so sentences equal to ones
already present can be introduced. -/
theorem c3_amended :
    (∀ (kb : List Sentence) (u : Sentence),
      u ∈ resolutionList kb ↔
        ∃ s ∈ kb, ∃ t ∈ kb, s.cells ⊂ t.cells ∧
          u = { cells := t.cells \ s.cells, count := t.count - s.count
                known_mine_set := ∅, known_safe_set := ∅ }) ∧
    (∀ (st : MinesweeperAI) (c : Cell) (n : Int) (st1 : MinesweeperAI),
      (st.addKnowledgeStage1 c n).mark_sels_as_mine_or_safe = some st1 →
      st.add_knowledge c n =
        st1.addKnowledgeResolved.mark_sels_as_mine_or_safe) ∧
    (∀ st1 : MinesweeperAI,
      st1.addKnowledgeResolved.knowledge =
        st1.knowledge ++ resolutionList st1.knowledge) := by
  refine ⟨fun kb u => mem_resolutionList, fun st c n st1 h => ?_, fun st1 => rfl⟩
  unfold MinesweeperAI.add_knowledge
  rw [h]
  rfl

/-- C3, witness for the amended theorem: the resolution step of the demo
run's third call, with its derived duplicate. -/
theorem c3_amended_witness :
    ({ cells := ({((0 : Int), (1 : Int))} : Finset Cell), count := 1
       known_mine_set := ∅, known_safe_set := ∅ } : Sentence) ∈
      resolutionList
        [{ cells := {((0 : Int), (0 : Int))}, count := 0
           known_mine_set := ∅, known_safe_set := ∅ },
         { cells := {((0 : Int), (0 : Int)), ((0 : Int), (1 : Int))}, count := 1
           known_mine_set := ∅, known_safe_set := ∅ }] ∧
    demo2.add_knowledge (3, 1) 1 =
      demoMidState.addKnowledgeResolved.mark_sels_as_mine_or_safe :=
  ⟨(c3_amended.1 _ _).mpr
      ⟨_, List.mem_cons_self _ _, _,
        List.mem_cons_of_mem _ (List.mem_cons_self _ _), by decide, by decide⟩,
   c3_amended.2.1 demo2 (3, 1) 1 demoMidState (by decide)⟩

/-! ## Claim C10 -/

/-- C10: confirmed.  On a fresh 3x3 board, add_knowledge((1,1), 1) succeeds
and leaves exactly one sentence, whose cell set is the full in-bounds
8-neighbourhood of (1,1) (8 cells) and whose count is 1. -/
theorem c10_single_sentence :
    (initialAI 3 3).add_knowledge (1, 1) 1 = some scenario3State ∧
    scenario3State.knowledge.map (fun s => (s.cells, s.count)) =
      [(nbhd8 3 3 (1, 1), 1)] ∧
    (nbhd8 3 3 (1, 1)).card = 8 := by
  refine ⟨by decide, by decide, by decide⟩

/-! ## Claims C4 and C5: counterexamples -/

/-- C4, counterexample: the claim quantifies over all sequences of the three
public mutators; marking a cell safe and then marking the same cell a mine
is such a sequence and leaves the cell in both sets. -/
theorem c4_counterexample :
    Reachable c4Bad ∧ ¬ (c4Bad.safes ∩ c4Bad.mines = ∅) :=
  ⟨Reachable.mark_mine _ (Reachable.mark_safe _ (Reachable.start 2 2)),
   by decide⟩

/-- C5, counterexample: add_knowledge accepts an arbitrary integer count, so
a single call with count -1 on a fresh 1x2 board reaches a knowledge base
whose only sentence has count -1 over one cell, violating
0 <= count <= len(cells). -/
theorem c5_counterexample :
    Reachable c5Bad ∧
    ((initialAI 1 2).add_knowledge (0, 0) (-1)) = some c5Bad ∧
    ¬ (∀ s ∈ c5Bad.knowledge, 0 ≤ s.count ∧ s.count ≤ (s.cells.card : Int)) :=
  ⟨Reachable.add_knowledge (0, 0) (-1) (Reachable.start 1 2)
      (show (initialAI 1 2).add_knowledge (0, 0) (-1) = some c5Bad by decide),
   by decide, by decide⟩

/-! ## Claim C8: idempotence of the global marking operations -/

theorem sentence_mark_safe_idem (s : Sentence) (c : Cell) :
    (s.mark_safe c).mark_safe c = s.mark_safe c := by
  by_cases hc : c ∈ s.cells
  · rw [sentence_mark_safe_mem hc]
    exact sentence_mark_safe_not_mem (by simp)
  · rw [sentence_mark_safe_not_mem hc, sentence_mark_safe_not_mem hc]

theorem sentence_mark_mine_idem (s : Sentence) (c : Cell) :
    (s.mark_mine c).mark_mine c = s.mark_mine c := by
  by_cases hc : c ∈ s.cells
  · rw [sentence_mark_mine_mem hc]
    exact sentence_mark_mine_not_mem (by simp)
  · rw [sentence_mark_mine_not_mem hc, sentence_mark_mine_not_mem hc]

/-- C8: confirmed, and for every state, not only reachable ones.  Marking
the same cell safe (or mine) twice leaves the whole state - moves_made,
safes, mines, and every sentence's fields - equal to the state after the
first call. -/
theorem c8_marking_idempotent :
    (∀ (st : MinesweeperAI) (c : Cell),
      (st.mark_safe c).mark_safe c = st.mark_safe c) ∧
    (∀ (st : MinesweeperAI) (c : Cell),
      (st.mark_mine c).mark_mine c = st.mark_mine c) := by
  constructor
  · intro st c
    unfold MinesweeperAI.mark_safe
    simp only [List.map_map, Finset.insert_idem]
    congr 1
    exact List.map_congr_left fun s _ => sentence_mark_safe_idem s c
  · intro st c
    unfold MinesweeperAI.mark_mine
    simp only [List.map_map, Finset.insert_idem]
    congr 1
    exact List.map_congr_left fun s _ => sentence_mark_mine_idem s c

/-! ## Claim C9: the random-move candidate list -/

theorem mem_make_random_move_candidates (st : MinesweeperAI) (p : Cell) :
    p ∈ st.make_random_move_candidates ↔
      st.inBounds p ∧ p ∉ st.moves_made ∧ p ∉ st.mines := by
  unfold MinesweeperAI.make_random_move_candidates MinesweeperAI.inBounds cellInBounds
  rw [List.mem_flatMap]
  constructor
  · rintro ⟨i, hi, hp⟩
    rw [List.mem_filterMap] at hp
    rcases hp with ⟨j, hj, hsome⟩
    rw [List.mem_range] at hi hj
    split_ifs at hsome with hcond
    · have hpe : p = ((i : Int), (j : Int)) := (Option.some.inj hsome).symm
      subst hpe
      refine ⟨⟨Int.ofNat_nonneg i, ?_, Int.ofNat_nonneg j, ?_⟩, hcond.1, hcond.2⟩
      · show (i : Int) < (st.height : Int)
        exact_mod_cast hi
      · show (j : Int) < (st.width : Int)
        exact_mod_cast hj
  · rintro ⟨⟨h1, h2, h3, h4⟩, hm, hn⟩
    refine ⟨p.1.toNat, ?_, ?_⟩
    · rw [List.mem_range]; omega
    · rw [List.mem_filterMap]
      refine ⟨p.2.toNat, ?_, ?_⟩
      · rw [List.mem_range]; omega
      · have hp : (((p.1.toNat : Int)), ((p.2.toNat : Int))) = p := by
          obtain ⟨a, b⟩ := p
          simp only [Prod.mk.injEq]
          constructor
          · omega
          · omega
        rw [hp, if_pos ⟨hm, hn⟩]

/-- C9: confirmed, for the deterministic candidate list that
make_random_move draws its uniform random choice from: every candidate is an
in-bounds board cell neither moved into nor known to be a mine, and the list
is empty - so the source returns the None sentinel - exactly when every
board cell is either moved-into or a known mine. -/
theorem c9_random_move_candidates :
    (∀ (st : MinesweeperAI) (p : Cell),
      p ∈ st.make_random_move_candidates →
      st.inBounds p ∧ p ∉ st.moves_made ∧ p ∉ st.mines) ∧
    (∀ st : MinesweeperAI,
      st.make_random_move_candidates = [] ↔
        ∀ p : Cell, st.inBounds p → p ∈ st.moves_made ∨ p ∈ st.mines) := by
  constructor
  · intro st p hp
    exact (mem_make_random_move_candidates st p).mp hp
  · intro st
    rw [List.eq_nil_iff_forall_not_mem]
    constructor
    · intro h p hin
      by_contra hcon
      push_neg at hcon
      exact h p ((mem_make_random_move_candidates st p).mpr ⟨hin, hcon.1, hcon.2⟩)
    · intro h p hp
      rcases (mem_make_random_move_candidates st p).mp hp with ⟨hin, hm, hn⟩
      rcases h p hin with hc | hc
      · exact hm hc
      · exact hn hc

/-- C9, witness: on a fresh 1x1 board the only candidate is (0,0), and on a
board whose single cell is moved-into the list is empty. -/
theorem c9_random_move_candidates_witness :
    ((initialAI 1 1).inBounds (0, 0) ∧ (0, 0) ∉ (initialAI 1 1).moves_made ∧
      (0, 0) ∉ (initialAI 1 1).mines) ∧
    (((initialAI 1 1).mark_safe (0, 0)).make_random_move_candidates = [] ↔
      ∀ p : Cell, ((initialAI 1 1).mark_safe (0, 0)).inBounds p →
        p ∈ ((initialAI 1 1).mark_safe (0, 0)).moves_made ∨
        p ∈ ((initialAI 1 1).mark_safe (0, 0)).mines) :=
  ⟨c9_random_move_candidates.1 (initialAI 1 1) (0, 0) (by decide),
   c9_random_move_candidates.2 _⟩

/-! ## Component lemmas for the state operations -/

theorem mark_mine_parts (st : MinesweeperAI) (c : Cell) :
    (st.mark_mine c).height = st.height ∧ (st.mark_mine c).width = st.width ∧
    (st.mark_mine c).moves_made = st.moves_made ∧
    (st.mark_mine c).safes = st.safes ∧
    (st.mark_mine c).mines = insert c st.mines ∧
    (st.mark_mine c).knowledge = st.knowledge.map (fun s => s.mark_mine c) :=
  ⟨rfl, rfl, rfl, rfl, rfl, rfl⟩

theorem mark_safe_parts (st : MinesweeperAI) (c : Cell) :
    (st.mark_safe c).height = st.height ∧ (st.mark_safe c).width = st.width ∧
    (st.mark_safe c).moves_made = st.moves_made ∧
    (st.mark_safe c).safes = insert c st.safes ∧
    (st.mark_safe c).mines = st.mines ∧
    (st.mark_safe c).knowledge = st.knowledge.map (fun s => s.mark_safe c) :=
  ⟨rfl, rfl, rfl, rfl, rfl, rfl⟩

theorem foldl_mark_mine_parts (L : List Cell) : ∀ st : MinesweeperAI,
    (L.foldl MinesweeperAI.mark_mine st).height = st.height ∧
    (L.foldl MinesweeperAI.mark_mine st).width = st.width ∧
    (L.foldl MinesweeperAI.mark_mine st).moves_made = st.moves_made ∧
    (L.foldl MinesweeperAI.mark_mine st).safes = st.safes ∧
    st.mines ⊆ (L.foldl MinesweeperAI.mark_mine st).mines ∧
    (L.foldl MinesweeperAI.mark_mine st).knowledge.length = st.knowledge.length := by
  induction L with
  | nil =>
    intro st
    exact ⟨rfl, rfl, rfl, rfl, Finset.Subset.refl _, rfl⟩
  | cons c L ih =>
    intro st
    have h := ih (st.mark_mine c)
    rw [List.foldl_cons]
    refine ⟨h.1, h.2.1, h.2.2.1, h.2.2.2.1, ?_, ?_⟩
    · exact (Finset.subset_insert c st.mines).trans h.2.2.2.2.1
    · rw [h.2.2.2.2.2, (mark_mine_parts st c).2.2.2.2.2, List.length_map]

theorem foldl_mark_safe_parts (L : List Cell) : ∀ st : MinesweeperAI,
    (L.foldl MinesweeperAI.mark_safe st).height = st.height ∧
    (L.foldl MinesweeperAI.mark_safe st).width = st.width ∧
    (L.foldl MinesweeperAI.mark_safe st).moves_made = st.moves_made ∧
    st.safes ⊆ (L.foldl MinesweeperAI.mark_safe st).safes ∧
    (L.foldl MinesweeperAI.mark_safe st).mines = st.mines ∧
    (L.foldl MinesweeperAI.mark_safe st).knowledge.length = st.knowledge.length := by
  induction L with
  | nil =>
    intro st
    exact ⟨rfl, rfl, rfl, Finset.Subset.refl _, rfl, rfl⟩
  | cons c L ih =>
    intro st
    have h := ih (st.mark_safe c)
    rw [List.foldl_cons]
    refine ⟨h.1, h.2.1, h.2.2.1, ?_, h.2.2.2.2.1, ?_⟩
    · exact (Finset.subset_insert c st.safes).trans h.2.2.2.1
    · rw [h.2.2.2.2.2, (mark_safe_parts st c).2.2.2.2.2, List.length_map]

theorem cells_sentence_mark_mine_subset (t : Sentence) (c : Cell) :
    (t.mark_mine c).cells ⊆ t.cells := by
  by_cases hc : c ∈ t.cells
  · rw [sentence_mark_mine_mem hc]
    exact Finset.erase_subset c t.cells
  · rw [sentence_mark_mine_not_mem hc]

theorem cells_sentence_mark_safe_subset (t : Sentence) (c : Cell) :
    (t.mark_safe c).cells ⊆ t.cells := by
  by_cases hc : c ∈ t.cells
  · rw [sentence_mark_safe_mem hc]
    exact Finset.erase_subset c t.cells
  · rw [sentence_mark_safe_not_mem hc]

theorem not_mem_cells_sentence_mark_mine (t : Sentence) (c : Cell) :
    c ∉ (t.mark_mine c).cells := by
  by_cases hc : c ∈ t.cells
  · rw [sentence_mark_mine_mem hc]
    simp
  · rw [sentence_mark_mine_not_mem hc]
    exact hc

theorem not_mem_cells_sentence_mark_safe (t : Sentence) (c : Cell) :
    c ∉ (t.mark_safe c).cells := by
  by_cases hc : c ∈ t.cells
  · rw [sentence_mark_safe_mem hc]
    simp
  · rw [sentence_mark_safe_not_mem hc]
    exact hc

/-! ## SentInv preservation -/

theorem sentInv_mark_mine {st : MinesweeperAI} (c : Cell) (h : SentInv st) :
    SentInv (st.mark_mine c) := by
  intro s hs
  rcases List.mem_map.mp hs with ⟨t, ht, rfl⟩
  rcases h t ht with ⟨hm, hsf⟩
  constructor
  · rw [Finset.eq_empty_iff_forall_not_mem]
    intro x hx
    rw [Finset.mem_inter] at hx
    rcases Finset.mem_insert.mp hx.2 with hx2 | hx2
    · exact not_mem_cells_sentence_mark_mine t c (hx2 ▸ hx.1)
    · exact Finset.eq_empty_iff_forall_not_mem.mp hm x
        (Finset.mem_inter.mpr ⟨cells_sentence_mark_mine_subset t c hx.1, hx2⟩)
  · rw [Finset.eq_empty_iff_forall_not_mem]
    intro x hx
    rw [Finset.mem_inter] at hx
    exact Finset.eq_empty_iff_forall_not_mem.mp hsf x
      (Finset.mem_inter.mpr ⟨cells_sentence_mark_mine_subset t c hx.1, hx.2⟩)

theorem sentInv_mark_safe {st : MinesweeperAI} (c : Cell) (h : SentInv st) :
    SentInv (st.mark_safe c) := by
  intro s hs
  rcases List.mem_map.mp hs with ⟨t, ht, rfl⟩
  rcases h t ht with ⟨hm, hsf⟩
  constructor
  · rw [Finset.eq_empty_iff_forall_not_mem]
    intro x hx
    rw [Finset.mem_inter] at hx
    exact Finset.eq_empty_iff_forall_not_mem.mp hm x
      (Finset.mem_inter.mpr ⟨cells_sentence_mark_safe_subset t c hx.1, hx.2⟩)
  · rw [Finset.eq_empty_iff_forall_not_mem]
    intro x hx
    rw [Finset.mem_inter] at hx
    rcases Finset.mem_insert.mp hx.2 with hx2 | hx2
    · exact not_mem_cells_sentence_mark_safe t c (hx2 ▸ hx.1)
    · exact Finset.eq_empty_iff_forall_not_mem.mp hsf x
        (Finset.mem_inter.mpr ⟨cells_sentence_mark_safe_subset t c hx.1, hx2⟩)

theorem sentInv_foldl_mark_mine (L : List Cell) (st : MinesweeperAI)
    (h : SentInv st) : SentInv (L.foldl MinesweeperAI.mark_mine st) :=
  foldl_induction _ _ L st h fun b a _ hb => sentInv_mark_mine a hb

theorem sentInv_foldl_mark_safe (L : List Cell) (st : MinesweeperAI)
    (h : SentInv st) : SentInv (L.foldl MinesweeperAI.mark_safe st) :=
  foldl_induction _ _ L st h fun b a _ hb => sentInv_mark_safe a hb

theorem sentInv_passMineStage (st : MinesweeperAI) (s : Sentence)
    (h : SentInv st) : SentInv (passMineStage st s) := by
  unfold passMineStage
  split_ifs
  · exact sentInv_foldl_mark_mine _ _ h
  · exact h

theorem sentInv_passSafeStage (st : MinesweeperAI) (s1 : Sentence)
    (h : SentInv st) : SentInv (passSafeStage st s1) := by
  unfold passSafeStage
  split_ifs
  · exact sentInv_foldl_mark_safe _ _ h
  · exact h

theorem sentInv_passStepState (st : MinesweeperAI) (idx : Nat)
    (h : SentInv st) : SentInv (passStepState st idx) := by
  unfold passStepState
  split
  · exact h
  · split_ifs
    · exact h
    · exact sentInv_passSafeStage _ _ (sentInv_passMineStage _ _ h)

/-! ## The removal loop -/

theorem mem_of_mem_removeFirstEqv :
    ∀ (l : List Sentence) (v x : Sentence), x ∈ removeFirstEqv l v → x ∈ l := by
  intro l
  induction l with
  | nil =>
    intro v x hx
    exact absurd hx (List.not_mem_nil x)
  | cons s rest ih =>
    intro v x hx
    unfold removeFirstEqv at hx
    split_ifs at hx
    · exact List.mem_cons_of_mem _ hx
    · rcases List.mem_cons.mp hx with hx1 | hx2
      · exact hx1 ▸ List.mem_cons_self s rest
      · exact List.mem_cons_of_mem _ (ih v x hx2)

theorem mem_of_mem_removeFold (vals : List Sentence) :
    ∀ (l : List Sentence) (x : Sentence), x ∈ vals.foldl removeFirstEqv l → x ∈ l := by
  induction vals with
  | nil =>
    intro l x hx
    exact hx
  | cons v vals ih =>
    intro l x hx
    rw [List.foldl_cons] at hx
    exact mem_of_mem_removeFirstEqv l v x (ih _ x hx)

/-! ## mark_sels_as_mine_or_safe -/

theorem fst_foldl_passStep (L : List Nat) :
    ∀ (st : MinesweeperAI) (rem : List Nat),
    (L.foldl passStep (st, rem)).1 = L.foldl passStepState st := by
  induction L with
  | nil =>
    intro st rem
    rfl
  | cons a L ih =>
    intro st rem
    rw [List.foldl_cons, List.foldl_cons]
    exact ih _ _

theorem fst_markSelsPass (st : MinesweeperAI) :
    (markSelsPass st).1 = (List.range st.knowledge.length).foldl passStepState st :=
  fst_foldl_passStep _ st []

theorem markSelsRemoved_parts (st : MinesweeperAI) :
    (markSelsRemoved st).height = (markSelsPass st).1.height ∧
    (markSelsRemoved st).width = (markSelsPass st).1.width ∧
    (markSelsRemoved st).moves_made = (markSelsPass st).1.moves_made ∧
    (markSelsRemoved st).safes = (markSelsPass st).1.safes ∧
    (markSelsRemoved st).mines = (markSelsPass st).1.mines ∧
    ∀ x ∈ (markSelsRemoved st).knowledge, x ∈ (markSelsPass st).1.knowledge :=
  ⟨rfl, rfl, rfl, rfl, rfl, fun x hx => mem_of_mem_removeFold _ _ x hx⟩

theorem sentInv_restrict {st : MinesweeperAI} {kb : List Sentence}
    (h : SentInv st) (hsub : ∀ s ∈ kb, s ∈ st.knowledge) :
    SentInv { st with knowledge := kb } :=
  fun s hs => h s (hsub s hs)

theorem sentInv_markSelsRemoved (st : MinesweeperAI) (h : SentInv st) :
    SentInv (markSelsRemoved st) := by
  have hpass : SentInv (markSelsPass st).1 := by
    rw [fst_markSelsPass]
    exact foldl_induction _ _ _ _ h fun b a _ hb => sentInv_passStepState b a hb
  unfold markSelsRemoved
  exact sentInv_restrict hpass fun s hs => mem_of_mem_removeFold _ _ s hs

theorem mark_sels_eq_some_of_sentInv (st : MinesweeperAI) (h : SentInv st) :
    st.mark_sels_as_mine_or_safe = some (markSelsRemoved st) ∧
    SentInv (markSelsRemoved st) := by
  have hrem := sentInv_markSelsRemoved st h
  refine ⟨?_, hrem⟩
  unfold MinesweeperAI.mark_sels_as_mine_or_safe
  rw [if_pos]
  rw [List.all_eq_true]
  intro s hs
  exact decide_eq_true (hrem s hs).1

theorem mark_sels_some_inv {st t : MinesweeperAI}
    (h : st.mark_sels_as_mine_or_safe = some t) : t = markSelsRemoved st := by
  unfold MinesweeperAI.mark_sels_as_mine_or_safe at h
  split_ifs at h
  exact (Option.some.inj h).symm

/-! ## Disjointness of safes and mines -/

theorem disj_insert_mines {safes mines : Finset Cell} {c : Cell}
    (h : safes ∩ mines = ∅) (hc : c ∉ safes) : safes ∩ insert c mines = ∅ := by
  rw [Finset.eq_empty_iff_forall_not_mem]
  intro x hx
  rw [Finset.mem_inter] at hx
  rcases Finset.mem_insert.mp hx.2 with hx2 | hx2
  · exact hc (hx2 ▸ hx.1)
  · exact Finset.eq_empty_iff_forall_not_mem.mp h x (Finset.mem_inter.mpr ⟨hx.1, hx2⟩)

theorem disj_insert_safes {safes mines : Finset Cell} {c : Cell}
    (h : safes ∩ mines = ∅) (hc : c ∉ mines) : insert c safes ∩ mines = ∅ := by
  rw [Finset.eq_empty_iff_forall_not_mem]
  intro x hx
  rw [Finset.mem_inter] at hx
  rcases Finset.mem_insert.mp hx.1 with hx2 | hx2
  · exact hc (hx2 ▸ hx.2)
  · exact Finset.eq_empty_iff_forall_not_mem.mp h x (Finset.mem_inter.mpr ⟨hx2, hx.2⟩)

theorem disj_foldl_mark_mine (L : List Cell) : ∀ st : MinesweeperAI,
    st.safes ∩ st.mines = ∅ → (∀ x ∈ L, x ∉ st.safes) →
    (L.foldl MinesweeperAI.mark_mine st).safes ∩
      (L.foldl MinesweeperAI.mark_mine st).mines = ∅ := by
  induction L with
  | nil =>
    intro st h _
    exact h
  | cons c L ih =>
    intro st h hL
    rw [List.foldl_cons]
    refine ih (st.mark_mine c) ?_ ?_
    · exact disj_insert_mines h (hL c (List.mem_cons_self c L))
    · intro x hx
      exact hL x (List.mem_cons_of_mem c hx)

theorem disj_foldl_mark_safe (L : List Cell) : ∀ st : MinesweeperAI,
    st.safes ∩ st.mines = ∅ → (∀ x ∈ L, x ∉ st.mines) →
    (L.foldl MinesweeperAI.mark_safe st).safes ∩
      (L.foldl MinesweeperAI.mark_safe st).mines = ∅ := by
  induction L with
  | nil =>
    intro st h _
    exact h
  | cons c L ih =>
    intro st h hL
    rw [List.foldl_cons]
    refine ih (st.mark_safe c) ?_ ?_
    · exact disj_insert_safes h (hL c (List.mem_cons_self c L))
    · intro x hx
      exact hL x (List.mem_cons_of_mem c hx)

theorem passMineStage_parts (st : MinesweeperAI) (s : Sentence) :
    (passMineStage st s).height = st.height ∧
    (passMineStage st s).width = st.width ∧
    (passMineStage st s).moves_made = st.moves_made ∧
    (passMineStage st s).safes = st.safes ∧
    st.mines ⊆ (passMineStage st s).mines ∧
    (passMineStage st s).knowledge.length = st.knowledge.length := by
  unfold passMineStage
  split_ifs
  · exact foldl_mark_mine_parts _ st
  · exact ⟨rfl, rfl, rfl, rfl, Finset.Subset.refl _, rfl⟩

theorem passSafeStage_parts (st : MinesweeperAI) (s1 : Sentence) :
    (passSafeStage st s1).height = st.height ∧
    (passSafeStage st s1).width = st.width ∧
    (passSafeStage st s1).moves_made = st.moves_made ∧
    st.safes ⊆ (passSafeStage st s1).safes ∧
    (passSafeStage st s1).mines = st.mines ∧
    (passSafeStage st s1).knowledge.length = st.knowledge.length := by
  unfold passSafeStage
  split_ifs
  · exact foldl_mark_safe_parts _ st
  · exact ⟨rfl, rfl, rfl, Finset.Subset.refl _, rfl, rfl⟩

theorem disj_passMineStage (st : MinesweeperAI) (s : Sentence)
    (hsent : SentInv st) (hd : st.safes ∩ st.mines = ∅) (hs : s ∈ st.knowledge) :
    (passMineStage st s).safes ∩ (passMineStage st s).mines = ∅ := by
  unfold passMineStage
  split_ifs
  · refine disj_foldl_mark_mine _ st hd ?_
    intro x hx
    intro hxs
    exact Finset.eq_empty_iff_forall_not_mem.mp (hsent s hs).2 x
      (Finset.mem_inter.mpr ⟨mem_cellList.mp hx, hxs⟩)
  · exact hd

theorem disj_passSafeStage (st : MinesweeperAI) (s1 : Sentence)
    (hsent : SentInv st) (hd : st.safes ∩ st.mines = ∅) (hs : s1 ∈ st.knowledge) :
    (passSafeStage st s1).safes ∩ (passSafeStage st s1).mines = ∅ := by
  unfold passSafeStage
  split_ifs
  · refine disj_foldl_mark_safe _ st hd ?_
    intro x hx
    intro hxm
    exact Finset.eq_empty_iff_forall_not_mem.mp (hsent s1 hs).1 x
      (Finset.mem_inter.mpr ⟨mem_cellList.mp hx, hxm⟩)
  · exact hd

theorem dinv_passStepState (st : MinesweeperAI) (idx : Nat)
    (h : SentInv st ∧ st.safes ∩ st.mines = ∅) :
    SentInv (passStepState st idx) ∧
      (passStepState st idx).safes ∩ (passStepState st idx).mines = ∅ := by
  unfold passStepState
  split
  · exact h
  · rename_i s heq
    split_ifs
    · exact h
    · have hmem : s ∈ st.knowledge := List.getElem?_mem heq
      have h1 : SentInv (passMineStage st s) ∧
          (passMineStage st s).safes ∩ (passMineStage st s).mines = ∅ :=
        ⟨sentInv_passMineStage st s h.1, disj_passMineStage st s h.1 h.2 hmem⟩
      have hlt : idx < st.knowledge.length := by
        by_contra hge
        rw [List.getElem?_eq_none (le_of_not_lt hge)] at heq
        exact absurd heq (by simp)
      have hlt2 : idx < (passMineStage st s).knowledge.length := by
        rw [(passMineStage_parts st s).2.2.2.2.2]
        exact hlt
      obtain ⟨s1, hs1⟩ : ∃ s1, (passMineStage st s).knowledge[idx]? = some s1 := by
        rw [List.getElem?_eq_getElem hlt2]
        exact ⟨_, rfl⟩
      rw [hs1]
      have hmem1 : s1 ∈ (passMineStage st s).knowledge := List.getElem?_mem hs1
      exact ⟨sentInv_passSafeStage _ _ h1.1,
        disj_passSafeStage _ _ h1.1 h1.2 hmem1⟩

theorem dinv_markSelsRemoved (st : MinesweeperAI)
    (h : SentInv st ∧ st.safes ∩ st.mines = ∅) :
    SentInv (markSelsRemoved st) ∧
      (markSelsRemoved st).safes ∩ (markSelsRemoved st).mines = ∅ := by
  have hpass : SentInv (markSelsPass st).1 ∧
      (markSelsPass st).1.safes ∩ (markSelsPass st).1.mines = ∅ := by
    rw [fst_markSelsPass]
    exact foldl_induction passStepState
      (fun b => SentInv b ∧ b.safes ∩ b.mines = ∅) _ _ h
      fun b a _ hb => dinv_passStepState b a hb
  constructor
  · unfold markSelsRemoved
    exact sentInv_restrict hpass.1 fun s hs => mem_of_mem_removeFold _ _ s hs
  · rw [(markSelsRemoved_parts st).2.2.2.1, (markSelsRemoved_parts st).2.2.2.2.1]
    exact hpass.2

/-! ## The add_knowledge stages -/

theorem mem_fst_neighborStep_foldl (st : MinesweeperAI) (cell : Cell)
    (L : List Cell) :
    ∀ (A : Finset Cell) (n : Int) (x : Cell),
    x ∈ (L.foldl (neighborStep st cell) (A, n)).1 →
    x ∈ A ∨ (x ∉ st.safes ∧ x ∉ st.mines ∧ st.inBounds x ∧ x ≠ cell) := by
  induction L with
  | nil =>
    intro A n x hx
    exact Or.inl hx
  | cons p L ih =>
    intro A n x hx
    rw [List.foldl_cons] at hx
    unfold neighborStep at hx
    split_ifs at hx with h1 h2 h3
    · exact ih _ _ x hx
    · exact ih _ _ x hx
    · rcases ih _ _ x hx with hA | hrest
      · rcases Finset.mem_insert.mp hA with hxp | hA2
        · subst hxp
          push_neg at h1
          exact Or.inr ⟨h1.2, h2, h3, h1.1⟩
        · exact Or.inl hA2
      · exact Or.inr hrest
    · exact ih _ _ x hx

theorem newSentenceFor_cells (st : MinesweeperAI) (cell : Cell) (count : Int) :
    ∀ x ∈ (st.newSentenceFor cell count).cells,
      x ∉ st.safes ∧ x ∉ st.mines ∧ st.inBounds x ∧ x ≠ cell := by
  intro x hx
  rcases mem_fst_neighborStep_foldl st cell (neighbors9 cell) ∅ count x hx with h | h
  · exact absurd h (Finset.not_mem_empty x)
  · exact h

theorem withMove_parts (st : MinesweeperAI) (cell : Cell) :
    (st.withMove cell).height = st.height ∧ (st.withMove cell).width = st.width ∧
    (st.withMove cell).moves_made = insert cell st.moves_made ∧
    (st.withMove cell).safes = st.safes ∧ (st.withMove cell).mines = st.mines ∧
    (st.withMove cell).knowledge = st.knowledge :=
  ⟨rfl, rfl, rfl, rfl, rfl, rfl⟩

theorem appendIfNew_parts (st : MinesweeperAI) (ns : Sentence) :
    (st.appendIfNew ns).height = st.height ∧ (st.appendIfNew ns).width = st.width ∧
    (st.appendIfNew ns).moves_made = st.moves_made ∧
    (st.appendIfNew ns).safes = st.safes ∧ (st.appendIfNew ns).mines = st.mines ∧
    ∀ s ∈ (st.appendIfNew ns).knowledge, s ∈ st.knowledge ∨ s = ns := by
  unfold MinesweeperAI.appendIfNew
  split_ifs
  · exact ⟨rfl, rfl, rfl, rfl, rfl, fun s hs => Or.inl hs⟩
  · refine ⟨rfl, rfl, rfl, rfl, rfl, fun s hs => ?_⟩
    rcases List.mem_append.mp hs with hs1 | hs1
    · exact Or.inl hs1
    · exact Or.inr (List.mem_singleton.mp hs1)

theorem purgeCell_parts (st : MinesweeperAI) (cell : Cell) :
    (st.purgeCell cell).height = st.height ∧ (st.purgeCell cell).width = st.width ∧
    (st.purgeCell cell).moves_made = st.moves_made ∧
    (st.purgeCell cell).safes = st.safes ∧ (st.purgeCell cell).mines = st.mines ∧
    ∀ s ∈ (st.purgeCell cell).knowledge,
      ∃ t ∈ st.knowledge, s.cells = t.cells.erase cell :=
  ⟨rfl, rfl, rfl, rfl, rfl, fun s hs => by
    rcases List.mem_map.mp hs with ⟨t, ht, rfl⟩
    exact ⟨t, ht, rfl⟩⟩

theorem sentInv_withMove (st : MinesweeperAI) (cell : Cell) (h : SentInv st) :
    SentInv (st.withMove cell) :=
  fun s hs => h s hs

theorem sentInv_appendIfNew (st : MinesweeperAI) (ns : Sentence) (h : SentInv st)
    (hns : ns.cells ∩ st.mines = ∅ ∧ ns.cells ∩ st.safes = ∅) :
    SentInv (st.appendIfNew ns) := by
  unfold MinesweeperAI.appendIfNew
  split_ifs
  · exact h
  · intro s hs
    rcases List.mem_append.mp hs with hs1 | hs1
    · exact h s hs1
    · rw [List.mem_singleton.mp hs1]
      exact hns

theorem sentInv_purgeCell (st : MinesweeperAI) (cell : Cell) (h : SentInv st) :
    SentInv (st.purgeCell cell) := by
  intro s hs
  rcases List.mem_map.mp hs with ⟨t, ht, rfl⟩
  rcases h t ht with ⟨hm, hsf⟩
  constructor
  · rw [Finset.eq_empty_iff_forall_not_mem]
    intro x hx
    rw [Finset.mem_inter] at hx
    exact Finset.eq_empty_iff_forall_not_mem.mp hm x
      (Finset.mem_inter.mpr ⟨Finset.erase_subset cell t.cells hx.1, hx.2⟩)
  · rw [Finset.eq_empty_iff_forall_not_mem]
    intro x hx
    rw [Finset.mem_inter] at hx
    exact Finset.eq_empty_iff_forall_not_mem.mp hsf x
      (Finset.mem_inter.mpr ⟨Finset.erase_subset cell t.cells hx.1, hx.2⟩)

theorem sentInv_addKnowledgeStage1 (st : MinesweeperAI) (cell : Cell)
    (count : Int) (h : SentInv st) : SentInv (st.addKnowledgeStage1 cell count) := by
  unfold MinesweeperAI.addKnowledgeStage1
  have h2 : SentInv ((st.withMove cell).mark_safe cell) :=
    sentInv_mark_safe cell (sentInv_withMove st cell h)
  refine sentInv_purgeCell _ cell (sentInv_appendIfNew _ _ h2 ?_)
  constructor
  · rw [Finset.eq_empty_iff_forall_not_mem]
    intro x hx
    rw [Finset.mem_inter] at hx
    exact (newSentenceFor_cells _ cell count x hx.1).2.1 hx.2
  · rw [Finset.eq_empty_iff_forall_not_mem]
    intro x hx
    rw [Finset.mem_inter] at hx
    exact (newSentenceFor_cells _ cell count x hx.1).1 hx.2

theorem sentInv_addKnowledgeResolved (st : MinesweeperAI) (h : SentInv st) :
    SentInv st.addKnowledgeResolved := by
  intro s hs
  rcases List.mem_append.mp hs with hs1 | hs1
  · exact h s hs1
  · rcases mem_resolutionList.mp hs1 with ⟨a, _, b, hb, hab, rfl⟩
    rcases h b hb with ⟨hm, hsf⟩
    constructor
    · rw [Finset.eq_empty_iff_forall_not_mem]
      intro x hx
      rw [Finset.mem_inter] at hx
      exact Finset.eq_empty_iff_forall_not_mem.mp hm x
        (Finset.mem_inter.mpr ⟨Finset.sdiff_subset hx.1, hx.2⟩)
    · rw [Finset.eq_empty_iff_forall_not_mem]
      intro x hx
      rw [Finset.mem_inter] at hx
      exact Finset.eq_empty_iff_forall_not_mem.mp hsf x
        (Finset.mem_inter.mpr ⟨Finset.sdiff_subset hx.1, hx.2⟩)

theorem add_knowledge_some_of_sentInv (st : MinesweeperAI) (c : Cell) (n : Int)
    (h : SentInv st) :
    st.add_knowledge c n =
      some (markSelsRemoved
        (markSelsRemoved (st.addKnowledgeStage1 c n)).addKnowledgeResolved) ∧
    SentInv (markSelsRemoved
        (markSelsRemoved (st.addKnowledgeStage1 c n)).addKnowledgeResolved) := by
  have h1 : SentInv (st.addKnowledgeStage1 c n) :=
    sentInv_addKnowledgeStage1 st c n h
  obtain ⟨heq1, hinv1⟩ := mark_sels_eq_some_of_sentInv _ h1
  have h2 : SentInv (markSelsRemoved (st.addKnowledgeStage1 c n)).addKnowledgeResolved :=
    sentInv_addKnowledgeResolved _ hinv1
  obtain ⟨heq2, hinv2⟩ := mark_sels_eq_some_of_sentInv _ h2
  refine ⟨?_, hinv2⟩
  unfold MinesweeperAI.add_knowledge
  rw [heq1, Option.some_bind, heq2]

/-! ## Claim C6 -/

theorem reachable_sentInv : ∀ st : MinesweeperAI, Reachable st → SentInv st := by
  intro st h
  induction h with
  | start height width =>
    intro s hs
    exact absurd hs (List.not_mem_nil s)
  | mark_mine c _ ih => exact sentInv_mark_mine c ih
  | mark_safe c _ ih => exact sentInv_mark_safe c ih
  | add_knowledge c n _ heq ih =>
    have h2 := add_knowledge_some_of_sentInv _ c n ih
    exact Option.some.inj (h2.1.symm.trans heq) ▸ h2.2

/-- C6: confirmed.  In every reachable state every sentence cell is outside
both mines and safes, and add_knowledge on any in-bounds cell with any count
returns normally: the branch of the final purge loop that would call the
undefined Sentence.remove (and so raise) is never reached. -/
theorem c6_add_knowledge_total :
    ∀ st : MinesweeperAI, Reachable st →
    (∀ s ∈ st.knowledge, s.cells ∩ st.mines = ∅ ∧ s.cells ∩ st.safes = ∅) ∧
    (∀ (c : Cell) (n : Int), st.inBounds c → (st.add_knowledge c n).isSome) := by
  intro st h
  have hinv := reachable_sentInv st h
  refine ⟨hinv, fun c n _ => ?_⟩
  rw [(add_knowledge_some_of_sentInv st c n hinv).1]
  rfl

/-- C6, witness: a fresh 2x2 board with the in-bounds reveal (0,0). -/
theorem c6_add_knowledge_total_witness :
    ((initialAI 2 2).add_knowledge (0, 0) 0).isSome :=
  (c6_add_knowledge_total (initialAI 2 2) (Reachable.start 2 2)).2 (0, 0) 0
    (by decide)

/-! ## Claim C4, amended -/

theorem disj_withMove (st : MinesweeperAI) (cell : Cell)
    (h : st.safes ∩ st.mines = ∅) :
    (st.withMove cell).safes ∩ (st.withMove cell).mines = ∅ := h

theorem dinv_addKnowledgeStage1 (st : MinesweeperAI) (cell : Cell) (count : Int)
    (h : st.safes ∩ st.mines = ∅) (hc : cell ∉ st.mines) :
    (st.addKnowledgeStage1 cell count).safes ∩
      (st.addKnowledgeStage1 cell count).mines = ∅ := by
  unfold MinesweeperAI.addKnowledgeStage1
  rw [(purgeCell_parts _ _).2.2.2.1, (purgeCell_parts _ _).2.2.2.2.1,
    (appendIfNew_parts _ _).2.2.2.1, (appendIfNew_parts _ _).2.2.2.2.1,
    (mark_safe_parts _ _).2.2.2.1, (mark_safe_parts _ _).2.2.2.2.1]
  exact disj_insert_safes h hc

theorem add_knowledge_dinv (st : MinesweeperAI) (c : Cell) (n : Int)
    (h : SentInv st ∧ st.safes ∩ st.mines = ∅) (hc : c ∉ st.mines) :
    ∀ st' : MinesweeperAI, st.add_knowledge c n = some st' →
      SentInv st' ∧ st'.safes ∩ st'.mines = ∅ := by
  intro st' heq
  have hstage : SentInv (st.addKnowledgeStage1 c n) ∧
      (st.addKnowledgeStage1 c n).safes ∩ (st.addKnowledgeStage1 c n).mines = ∅ :=
    ⟨sentInv_addKnowledgeStage1 st c n h.1, dinv_addKnowledgeStage1 st c n h.2 hc⟩
  have h1 := dinv_markSelsRemoved _ hstage
  have h2 : SentInv (markSelsRemoved (st.addKnowledgeStage1 c n)).addKnowledgeResolved ∧
      (markSelsRemoved (st.addKnowledgeStage1 c n)).addKnowledgeResolved.safes ∩
        (markSelsRemoved (st.addKnowledgeStage1 c n)).addKnowledgeResolved.mines = ∅ :=
    ⟨sentInv_addKnowledgeResolved _ h1.1, h1.2⟩
  have h3 := dinv_markSelsRemoved _ h2
  have heq2 := (add_knowledge_some_of_sentInv st c n h.1).1
  exact Option.some.inj (heq2.symm.trans heq) ▸ h3

theorem reachableG_dinv : ∀ st : MinesweeperAI, ReachableG st →
    SentInv st ∧ st.safes ∩ st.mines = ∅ := by
  intro st h
  induction h with
  | start height width =>
    constructor
    · intro s hs
      exact absurd hs (List.not_mem_nil s)
    · rfl
  | mark_mine c hc _ ih =>
    exact ⟨sentInv_mark_mine c ih.1, disj_insert_mines ih.2 hc⟩
  | mark_safe c hc _ ih =>
    exact ⟨sentInv_mark_safe c ih.1, disj_insert_safes ih.2 hc⟩
  | add_knowledge c n hc _ heq ih =>
    exact add_knowledge_dinv _ c n ih hc _ heq

/-- C4, amended: disjointness of safes and mines holds for every state
reachable by call sequences that never directly contradict already derived
facts - mark_mine is never invoked on a cell currently in safes, mark_safe
never on a cell currently in mines, and add_knowledge never reveals a cell
currently in mines.  (Without these guards the claim is false, see the
counterexample: the marking operations perform no consistency check.) -/
theorem c4_guarded_disjoint :
    ∀ st : MinesweeperAI, ReachableG st → st.safes ∩ st.mines = ∅ :=
  fun st h => (reachableG_dinv st h).2

/-- C4, witness: the amended theorem applied to the state after one reveal
on a fresh 3x3 board. -/
theorem c4_guarded_disjoint_witness :
    scenario3State.safes ∩ scenario3State.mines = ∅ :=
  c4_guarded_disjoint scenario3State
    (ReachableG.add_knowledge (1, 1) 1 (by decide) (ReachableG.start 3 3)
      (show (initialAI 3 3).add_knowledge (1, 1) 1 = some scenario3State by decide))

/-! ## Claim C7: monotonicity of the fact sets -/

theorem mono_passStepState (st : MinesweeperAI) (idx : Nat) :
    (passStepState st idx).moves_made = st.moves_made ∧
    st.safes ⊆ (passStepState st idx).safes ∧
    st.mines ⊆ (passStepState st idx).mines ∧
    (passStepState st idx).height = st.height ∧
    (passStepState st idx).width = st.width := by
  unfold passStepState
  split
  · exact ⟨rfl, Finset.Subset.refl _, Finset.Subset.refl _, rfl, rfl⟩
  · rename_i s heq
    split_ifs
    · exact ⟨rfl, Finset.Subset.refl _, Finset.Subset.refl _, rfl, rfl⟩
    · have hm := passMineStage_parts st s
      have hs := passSafeStage_parts (passMineStage st s)
        (((passMineStage st s).knowledge[idx]?).getD s)
      refine ⟨?_, ?_, ?_, ?_, ?_⟩
      · rw [hs.2.2.1, hm.2.2.1]
      · rw [← hm.2.2.2.1]
        exact hs.2.2.2.1
      · rw [hs.2.2.2.2.1]
        exact hm.2.2.2.2.1
      · rw [hs.1, hm.1]
      · rw [hs.2.1, hm.2.1]

theorem mono_markSelsRemoved (st : MinesweeperAI) :
    (markSelsRemoved st).moves_made = st.moves_made ∧
    st.safes ⊆ (markSelsRemoved st).safes ∧
    st.mines ⊆ (markSelsRemoved st).mines ∧
    (markSelsRemoved st).height = st.height ∧
    (markSelsRemoved st).width = st.width := by
  have hp : (markSelsPass st).1.moves_made = st.moves_made ∧
      st.safes ⊆ (markSelsPass st).1.safes ∧
      st.mines ⊆ (markSelsPass st).1.mines ∧
      (markSelsPass st).1.height = st.height ∧
      (markSelsPass st).1.width = st.width := by
    rw [fst_markSelsPass]
    refine foldl_induction passStepState
      (fun b => b.moves_made = st.moves_made ∧ st.safes ⊆ b.safes ∧
        st.mines ⊆ b.mines ∧ b.height = st.height ∧ b.width = st.width) _ _
      ⟨rfl, Finset.Subset.refl _, Finset.Subset.refl _, rfl, rfl⟩ ?_
    intro b a _ hb
    have hstep := mono_passStepState b a
    refine ⟨?_, ?_, ?_, ?_, ?_⟩
    · rw [hstep.1, hb.1]
    · exact hb.2.1.trans hstep.2.1
    · exact hb.2.2.1.trans hstep.2.2.1
    · rw [hstep.2.2.2.1, hb.2.2.2.1]
    · rw [hstep.2.2.2.2, hb.2.2.2.2]
  have hparts := markSelsRemoved_parts st
  refine ⟨?_, ?_, ?_, ?_, ?_⟩
  · rw [hparts.2.2.1]
    exact hp.1
  · rw [hparts.2.2.2.1]
    exact hp.2.1
  · rw [hparts.2.2.2.2.1]
    exact hp.2.2.1
  · rw [hparts.1]
    exact hp.2.2.2.1
  · rw [hparts.2.1]
    exact hp.2.2.2.2

theorem stage1_parts (st : MinesweeperAI) (cell : Cell) (count : Int) :
    (st.addKnowledgeStage1 cell count).height = st.height ∧
    (st.addKnowledgeStage1 cell count).width = st.width ∧
    (st.addKnowledgeStage1 cell count).moves_made = insert cell st.moves_made ∧
    (st.addKnowledgeStage1 cell count).safes = insert cell st.safes ∧
    (st.addKnowledgeStage1 cell count).mines = st.mines := by
  unfold MinesweeperAI.addKnowledgeStage1
  have hp := purgeCell_parts
    (MinesweeperAI.appendIfNew ((st.withMove cell).mark_safe cell)
      (((st.withMove cell).mark_safe cell).newSentenceFor cell count)) cell
  have ha := appendIfNew_parts ((st.withMove cell).mark_safe cell)
    (((st.withMove cell).mark_safe cell).newSentenceFor cell count)
  have hm := mark_safe_parts (st.withMove cell) cell
  refine ⟨?_, ?_, ?_, ?_, ?_⟩
  · rw [hp.1, ha.1, hm.1]
    rfl
  · rw [hp.2.1, ha.2.1, hm.2.1]
    rfl
  · rw [hp.2.2.1, ha.2.2.1, hm.2.2.1]
    rfl
  · rw [hp.2.2.2.1, ha.2.2.2.1, hm.2.2.2.1]
    rfl
  · rw [hp.2.2.2.2.1, ha.2.2.2.2.1, hm.2.2.2.2.1]
    rfl

theorem addKnowledgeResolved_parts (st : MinesweeperAI) :
    st.addKnowledgeResolved.height = st.height ∧
    st.addKnowledgeResolved.width = st.width ∧
    st.addKnowledgeResolved.moves_made = st.moves_made ∧
    st.addKnowledgeResolved.safes = st.safes ∧
    st.addKnowledgeResolved.mines = st.mines :=
  ⟨rfl, rfl, rfl, rfl, rfl⟩

theorem add_knowledge_parts (st st' : MinesweeperAI) (c : Cell) (n : Int)
    (h : st.add_knowledge c n = some st') :
    st.moves_made ⊆ st'.moves_made ∧ st.safes ⊆ st'.safes ∧
    st.mines ⊆ st'.mines ∧ st'.height = st.height ∧ st'.width = st.width := by
  unfold MinesweeperAI.add_knowledge at h
  rcases Option.bind_eq_some.mp h with ⟨st1, heq1, heq2⟩
  have h1 : st1 = markSelsRemoved (st.addKnowledgeStage1 c n) := mark_sels_some_inv heq1
  have h2 : st' = markSelsRemoved st1.addKnowledgeResolved := mark_sels_some_inv heq2
  subst h1
  subst h2
  have hs := stage1_parts st c n
  have hr1 := mono_markSelsRemoved (st.addKnowledgeStage1 c n)
  have hres := addKnowledgeResolved_parts (markSelsRemoved (st.addKnowledgeStage1 c n))
  have hr2 := mono_markSelsRemoved
    (markSelsRemoved (st.addKnowledgeStage1 c n)).addKnowledgeResolved
  refine ⟨?_, ?_, ?_, ?_, ?_⟩
  · have step1 : st.moves_made ⊆ (st.addKnowledgeStage1 c n).moves_made := by
      rw [hs.2.2.1]
      exact Finset.subset_insert _ _
    rw [← hr1.1, ← hres.2.2.1] at step1
    refine step1.trans ?_
    rw [hr2.1]
  · have step1 : st.safes ⊆ (st.addKnowledgeStage1 c n).safes := by
      rw [hs.2.2.2.1]
      exact Finset.subset_insert _ _
    refine (step1.trans hr1.2.1).trans ?_
    rw [← hres.2.2.2.1]
    exact hr2.2.1
  · have step1 : st.mines ⊆ (st.addKnowledgeStage1 c n).mines := by
      rw [hs.2.2.2.2]
    refine (step1.trans hr1.2.2.1).trans ?_
    rw [← hres.2.2.2.2]
    exact hr2.2.2.1
  · rw [hr2.2.2.2.1, hres.1, hr1.2.2.2.1, hs.1]
  · rw [hr2.2.2.2.2, hres.2.1, hr1.2.2.2.2, hs.2.1]

/-- C7: confirmed.  Each of the three public mutators only grows the three
fact sets: after mark_mine, mark_safe, or a returning add_knowledge call,
moves_made, safes and mines are supersets of their previous values. -/
theorem c7_fact_sets_monotone :
    (∀ (st : MinesweeperAI) (c : Cell),
      st.moves_made ⊆ (st.mark_mine c).moves_made ∧
      st.safes ⊆ (st.mark_mine c).safes ∧ st.mines ⊆ (st.mark_mine c).mines) ∧
    (∀ (st : MinesweeperAI) (c : Cell),
      st.moves_made ⊆ (st.mark_safe c).moves_made ∧
      st.safes ⊆ (st.mark_safe c).safes ∧ st.mines ⊆ (st.mark_safe c).mines) ∧
    (∀ (st st' : MinesweeperAI) (c : Cell) (n : Int),
      st.add_knowledge c n = some st' →
      st.moves_made ⊆ st'.moves_made ∧ st.safes ⊆ st'.safes ∧
      st.mines ⊆ st'.mines) := by
  refine ⟨?_, ?_, ?_⟩
  · intro st c
    exact ⟨Finset.Subset.refl _, Finset.Subset.refl _, Finset.subset_insert _ _⟩
  · intro st c
    exact ⟨Finset.Subset.refl _, Finset.subset_insert _ _, Finset.Subset.refl _⟩
  · intro st st' c n h
    have hp := add_knowledge_parts st st' c n h
    exact ⟨hp.1, hp.2.1, hp.2.2.1⟩

/-- C7, witness: the add_knowledge conjunct at the scenario-3 input. -/
theorem c7_fact_sets_monotone_witness :
    (initialAI 3 3).moves_made ⊆ scenario3State.moves_made ∧
    (initialAI 3 3).safes ⊆ scenario3State.safes ∧
    (initialAI 3 3).mines ⊆ scenario3State.mines :=
  c7_fact_sets_monotone.2.2 (initialAI 3 3) scenario3State (1, 1) 1 (by decide)

/-! ## The neighbour sentence against a ground truth -/

theorem neighborStep_eq (st : MinesweeperAI) (cell : Cell) (acc : Finset Cell × Int)
    (p : Cell) :
    neighborStep st cell acc p =
      if p = cell ∨ p ∈ st.safes then acc
      else if p ∈ st.mines then (acc.1, acc.2 - 1)
      else if st.inBounds p then (insert p acc.1, acc.2)
      else acc := rfl

theorem neighborStep_foldl_spec (st : MinesweeperAI) (cell : Cell) (L : List Cell) :
    ∀ (A : Finset Cell) (n : Int),
    L.foldl (neighborStep st cell) (A, n) =
      (A ∪ (L.filter fun p =>
          decide (¬(p = cell ∨ p ∈ st.safes) ∧ p ∉ st.mines ∧ st.inBounds p)).toFinset,
       n - ((L.filter fun p =>
          decide (¬(p = cell ∨ p ∈ st.safes) ∧ p ∈ st.mines)).length : Int)) := by
  induction L with
  | nil =>
    intro A n
    simp
  | cons p L ih =>
    intro A n
    rw [List.foldl_cons, neighborStep_eq]
    by_cases h1 : p = cell ∨ p ∈ st.safes
    · rw [if_pos h1, ih, List.filter_cons, List.filter_cons]
      simp [h1]
    · by_cases h2 : p ∈ st.mines
      · rw [if_neg h1, if_pos h2, ih, List.filter_cons, List.filter_cons]
        simp [h1, h2]
        ring
      · by_cases h3 : st.inBounds p
        · rw [if_neg h1, if_neg h2, if_pos h3, ih, List.filter_cons, List.filter_cons]
          simp [h1, h2, h3, Finset.insert_union, Finset.union_insert]
        · rw [if_neg h1, if_neg h2, if_neg h3, ih, List.filter_cons, List.filter_cons]
          simp [h1, h2, h3]

theorem newSentenceFor_spec (st : MinesweeperAI) (cell : Cell) (count : Int) :
    (st.newSentenceFor cell count).cells =
      ((neighbors9 cell).filter fun p =>
        decide (¬(p = cell ∨ p ∈ st.safes) ∧ p ∉ st.mines ∧ st.inBounds p)).toFinset ∧
    (st.newSentenceFor cell count).count =
      count - (((neighbors9 cell).filter fun p =>
        decide (¬(p = cell ∨ p ∈ st.safes) ∧ p ∈ st.mines)).length : Int) := by
  unfold MinesweeperAI.newSentenceFor
  rw [neighborStep_foldl_spec]
  constructor
  · simp
  · simp

theorem nodup_neighbors9 (cell : Cell) : (neighbors9 cell).Nodup := by
  obtain ⟨a, b⟩ := cell
  simp [neighbors9, List.nodup_cons, Prod.mk.injEq]
  omega

theorem mem_nbhd8 {height width : Nat} {c x : Cell} :
    x ∈ nbhd8 height width c ↔
      x ∈ neighbors9 c ∧ x ≠ c ∧ cellInBounds height width x := by
  unfold nbhd8
  rw [List.mem_toFinset, List.mem_filter]
  simp

theorem newSentence_count_consistent (st : MinesweeperAI) (cell : Cell)
    (M : Finset Cell)
    (hb : ∀ p ∈ M, cellInBounds st.height st.width p)
    (hm : st.mines ⊆ M) (hsd : st.safes ∩ M = ∅) (hcell : cell ∉ M) :
    (((st.newSentenceFor cell
        ((nbhd8 st.height st.width cell ∩ M).card : Int)).cells ∩ M).card : Int) =
      (st.newSentenceFor cell
        ((nbhd8 st.height st.width cell ∩ M).card : Int)).count := by
  obtain ⟨hcells, hcount⟩ :=
    newSentenceFor_spec st cell ((nbhd8 st.height st.width cell ∩ M).card : Int)
  rw [hcells, hcount]
  have hKM : ((neighbors9 cell).filter fun p =>
        decide (¬(p = cell ∨ p ∈ st.safes) ∧ p ∉ st.mines ∧ st.inBounds p)).toFinset ∩ M =
      (nbhd8 st.height st.width cell ∩ M) \ st.mines := by
    ext x
    simp only [Finset.mem_inter, Finset.mem_sdiff, List.mem_toFinset, List.mem_filter,
      mem_nbhd8, decide_eq_true_eq]
    constructor
    · rintro ⟨⟨hx9, hcond⟩, hxM⟩
      exact ⟨⟨⟨hx9, fun h => hcond.1 (Or.inl h), hcond.2.2⟩, hxM⟩, hcond.2.1⟩
    · rintro ⟨⟨⟨hx9, hxc, hxB⟩, hxM⟩, hxm⟩
      refine ⟨⟨hx9, ⟨?_, hxm, hxB⟩⟩, hxM⟩
      rintro (h | h)
      · exact hxc h
      · exact Finset.eq_empty_iff_forall_not_mem.mp hsd x
          (Finset.mem_inter.mpr ⟨h, hxM⟩)
  have hD : ((neighbors9 cell).filter fun p =>
        decide (¬(p = cell ∨ p ∈ st.safes) ∧ p ∈ st.mines)).toFinset =
      nbhd8 st.height st.width cell ∩ st.mines := by
    ext x
    simp only [Finset.mem_inter, List.mem_toFinset, List.mem_filter, mem_nbhd8,
      decide_eq_true_eq]
    constructor
    · rintro ⟨hx9, hcond⟩
      refine ⟨⟨hx9, ?_, hb x (hm hcond.2)⟩, hcond.2⟩
      intro hxc
      exact hcell (hm (hxc ▸ hcond.2))
    · rintro ⟨⟨hx9, hxc, _⟩, hxm⟩
      refine ⟨hx9, ⟨?_, hxm⟩⟩
      rintro (h | h)
      · exact hxc h
      · exact Finset.eq_empty_iff_forall_not_mem.mp hsd x
          (Finset.mem_inter.mpr ⟨h, hm hxm⟩)
  have hDlen : ((neighbors9 cell).filter fun p =>
        decide (¬(p = cell ∨ p ∈ st.safes) ∧ p ∈ st.mines)).length =
      (nbhd8 st.height st.width cell ∩ st.mines).card := by
    rw [← hD, List.toFinset_card_of_nodup ((nodup_neighbors9 cell).filter _)]
  have hMm : nbhd8 st.height st.width cell ∩ M ∩ st.mines =
      nbhd8 st.height st.width cell ∩ st.mines := by
    ext x
    simp only [Finset.mem_inter]
    constructor
    · rintro ⟨⟨h1, _⟩, h2⟩
      exact ⟨h1, h2⟩
    · rintro ⟨h1, h2⟩
      exact ⟨⟨h1, hm h2⟩, h2⟩
  have hcard := Finset.card_sdiff_add_card_inter
    (nbhd8 st.height st.width cell ∩ M) st.mines
  rw [hMm] at hcard
  rw [hKM, hDlen]
  omega

/-! ## ConsInv preservation -/

theorem count_inter_sentence_mark_mine {M : Finset Cell} {t : Sentence} {c : Cell}
    (hc : c ∈ M) (ht : ((t.cells ∩ M).card : Int) = t.count) :
    (((t.mark_mine c).cells ∩ M).card : Int) = (t.mark_mine c).count := by
  by_cases hmem : c ∈ t.cells
  · rw [sentence_mark_mine_mem hmem]
    have he : t.cells.erase c ∩ M = (t.cells ∩ M).erase c := by
      ext x
      simp only [Finset.mem_erase, Finset.mem_inter]
      tauto
    show ((t.cells.erase c ∩ M).card : Int) = t.count - 1
    rw [he, Finset.card_erase_of_mem (Finset.mem_inter.mpr ⟨hmem, hc⟩)]
    have h1 : 1 ≤ (t.cells ∩ M).card :=
      Finset.card_pos.mpr ⟨c, Finset.mem_inter.mpr ⟨hmem, hc⟩⟩
    omega
  · rw [sentence_mark_mine_not_mem hmem]
    exact ht

theorem count_inter_sentence_mark_safe {M : Finset Cell} {t : Sentence} {c : Cell}
    (hc : c ∉ M) (ht : ((t.cells ∩ M).card : Int) = t.count) :
    (((t.mark_safe c).cells ∩ M).card : Int) = (t.mark_safe c).count := by
  by_cases hmem : c ∈ t.cells
  · rw [sentence_mark_safe_mem hmem]
    have he : t.cells.erase c ∩ M = t.cells ∩ M := by
      ext x
      simp only [Finset.mem_erase, Finset.mem_inter]
      constructor
      · rintro ⟨⟨_, hx1⟩, hx2⟩
        exact ⟨hx1, hx2⟩
      · rintro ⟨hx1, hx2⟩
        exact ⟨⟨fun hxc => hc (hxc ▸ hx2), hx1⟩, hx2⟩
    show ((t.cells.erase c ∩ M).card : Int) = t.count
    rw [he]
    exact ht
  · rw [sentence_mark_safe_not_mem hmem]
    exact ht

theorem consInv_mark_mine {M : Finset Cell} {st : MinesweeperAI} (c : Cell)
    (h : ConsInv M st) (hc : c ∈ M) : ConsInv M (st.mark_mine c) := by
  obtain ⟨hb, hm, hsd, hsent, hcnt⟩ := h
  refine ⟨hb, Finset.insert_subset_iff.mpr ⟨hc, hm⟩, hsd,
    sentInv_mark_mine c hsent, ?_⟩
  intro s hs
  rcases List.mem_map.mp hs with ⟨t, ht, rfl⟩
  exact count_inter_sentence_mark_mine hc (hcnt t ht)

theorem consInv_mark_safe {M : Finset Cell} {st : MinesweeperAI} (c : Cell)
    (h : ConsInv M st) (hc : c ∉ M) : ConsInv M (st.mark_safe c) := by
  obtain ⟨hb, hm, hsd, hsent, hcnt⟩ := h
  refine ⟨hb, hm, disj_insert_safes hsd hc, sentInv_mark_safe c hsent, ?_⟩
  intro s hs
  rcases List.mem_map.mp hs with ⟨t, ht, rfl⟩
  exact count_inter_sentence_mark_safe hc (hcnt t ht)

theorem consInv_foldl_mark_mine (M : Finset Cell) (L : List Cell) :
    ∀ st : MinesweeperAI, ConsInv M st → (∀ x ∈ L, x ∈ M) →
    ConsInv M (L.foldl MinesweeperAI.mark_mine st) := by
  induction L with
  | nil =>
    intro st h _
    exact h
  | cons c L ih =>
    intro st h hL
    rw [List.foldl_cons]
    exact ih _ (consInv_mark_mine c h (hL c (List.mem_cons_self c L)))
      fun x hx => hL x (List.mem_cons_of_mem c hx)

theorem consInv_foldl_mark_safe (M : Finset Cell) (L : List Cell) :
    ∀ st : MinesweeperAI, ConsInv M st → (∀ x ∈ L, x ∉ M) →
    ConsInv M (L.foldl MinesweeperAI.mark_safe st) := by
  induction L with
  | nil =>
    intro st h _
    exact h
  | cons c L ih =>
    intro st h hL
    rw [List.foldl_cons]
    exact ih _ (consInv_mark_safe c h (hL c (List.mem_cons_self c L)))
      fun x hx => hL x (List.mem_cons_of_mem c hx)

theorem consInv_passStepState (M : Finset Cell) (st : MinesweeperAI) (idx : Nat)
    (h : ConsInv M st) : ConsInv M (passStepState st idx) := by
  unfold passStepState
  split
  · exact h
  · rename_i s heq
    have hmem : s ∈ st.knowledge := List.getElem?_mem heq
    split_ifs
    · exact h
    · have h1 : ConsInv M (passMineStage st s) := by
        unfold passMineStage
        split_ifs with htriv
        · refine consInv_foldl_mark_mine M _ st h ?_
          have hcnt := h.2.2.2.2 s hmem
          have hcard : (s.cells ∩ M).card = s.cells.card := by omega
          have hsub : s.cells ∩ M = s.cells :=
            Finset.eq_of_subset_of_card_le Finset.inter_subset_left
              (le_of_eq hcard.symm)
          intro x hx
          have hx2 : x ∈ s.cells ∩ M := hsub.symm ▸ mem_cellList.mp hx
          exact (Finset.mem_inter.mp hx2).2
        · exact h
      have hlt : idx < st.knowledge.length := by
        by_contra hge
        rw [List.getElem?_eq_none (le_of_not_lt hge)] at heq
        exact absurd heq (by simp)
      have hlt2 : idx < (passMineStage st s).knowledge.length := by
        rw [(passMineStage_parts st s).2.2.2.2.2]
        exact hlt
      obtain ⟨s1, hs1⟩ : ∃ s1, (passMineStage st s).knowledge[idx]? = some s1 := by
        rw [List.getElem?_eq_getElem hlt2]
        exact ⟨_, rfl⟩
      rw [hs1]
      simp only [Option.getD_some]
      have hmem1 : s1 ∈ (passMineStage st s).knowledge := List.getElem?_mem hs1
      unfold passSafeStage
      split_ifs with hz
      · refine consInv_foldl_mark_safe M _ _ h1 ?_
        have hcnt1 := h1.2.2.2.2 s1 hmem1
        rw [hz] at hcnt1
        have hzero : (s1.cells ∩ M).card = 0 := by omega
        have hempty : s1.cells ∩ M = ∅ := Finset.card_eq_zero.mp hzero
        intro x hx hxM
        exact Finset.eq_empty_iff_forall_not_mem.mp hempty x
          (Finset.mem_inter.mpr ⟨mem_cellList.mp hx, hxM⟩)
      · exact h1

theorem consInv_restrict {M : Finset Cell} {st : MinesweeperAI} {kb : List Sentence}
    (h : ConsInv M st) (hsub : ∀ s ∈ kb, s ∈ st.knowledge) :
    ConsInv M { st with knowledge := kb } :=
  ⟨h.1, h.2.1, h.2.2.1, sentInv_restrict h.2.2.2.1 hsub,
   fun s hs => h.2.2.2.2 s (hsub s hs)⟩

theorem consInv_markSelsRemoved (M : Finset Cell) (st : MinesweeperAI)
    (h : ConsInv M st) : ConsInv M (markSelsRemoved st) := by
  have hpass : ConsInv M (markSelsPass st).1 := by
    rw [fst_markSelsPass]
    exact foldl_induction passStepState (ConsInv M) _ _ h
      fun b a _ hb => consInv_passStepState M b a hb
  unfold markSelsRemoved
  exact consInv_restrict hpass fun s hs => mem_of_mem_removeFold _ _ s hs

theorem consInv_addKnowledgeResolved (M : Finset Cell) (st : MinesweeperAI)
    (h : ConsInv M st) : ConsInv M st.addKnowledgeResolved := by
  obtain ⟨hb, hm, hsd, hsent, hcnt⟩ := h
  refine ⟨hb, hm, hsd, sentInv_addKnowledgeResolved st hsent, ?_⟩
  intro s hs
  rcases List.mem_append.mp hs with hs1 | hs1
  · exact hcnt s hs1
  · rcases mem_resolutionList.mp hs1 with ⟨a, ha, b, hbk, hab, rfl⟩
    have hsub : a.cells ⊆ b.cells := hab.subset
    have hident : b.cells \ a.cells ∩ M = (b.cells ∩ M) \ (a.cells ∩ M) := by
      ext x
      simp only [Finset.mem_sdiff, Finset.mem_inter]
      constructor
      · rintro ⟨⟨hxb, hxa⟩, hxM⟩
        exact ⟨⟨hxb, hxM⟩, fun hx => hxa hx.1⟩
      · rintro ⟨⟨hxb, hxM⟩, hxa⟩
        exact ⟨⟨hxb, fun hx => hxa ⟨hx, hxM⟩⟩, hxM⟩
    have hsub2 : a.cells ∩ M ⊆ b.cells ∩ M := fun x hx =>
      Finset.mem_inter.mpr ⟨hsub (Finset.mem_inter.mp hx).1,
        (Finset.mem_inter.mp hx).2⟩
    show ((b.cells \ a.cells ∩ M).card : Int) = b.count - a.count
    rw [hident, Finset.card_sdiff hsub2]
    have hA := hcnt a ha
    have hB := hcnt b hbk
    have hle := Finset.card_le_card hsub2
    omega

theorem consInv_addKnowledgeStage1 (M : Finset Cell) (st : MinesweeperAI)
    (cell : Cell) (h : ConsInv M st) (hc : cell ∉ M) :
    ConsInv M (st.addKnowledgeStage1 cell (consistentCount M st cell)) := by
  have h1 : ConsInv M (st.withMove cell) :=
    ⟨h.1, h.2.1, h.2.2.1, h.2.2.2.1, h.2.2.2.2⟩
  have h2 : ConsInv M ((st.withMove cell).mark_safe cell) :=
    consInv_mark_safe cell h1 hc
  have hns_count : ((((
      (st.withMove cell).mark_safe cell).newSentenceFor cell
        (consistentCount M st cell)).cells ∩ M).card : Int) =
      (((st.withMove cell).mark_safe cell).newSentenceFor cell
        (consistentCount M st cell)).count :=
    newSentence_count_consistent ((st.withMove cell).mark_safe cell) cell M
      h2.1 h2.2.1 h2.2.2.1 hc
  have h3 : ConsInv M (((st.withMove cell).mark_safe cell).appendIfNew
      (((st.withMove cell).mark_safe cell).newSentenceFor cell
        (consistentCount M st cell))) := by
    obtain ⟨hb2, hm2, hsd2, hsent2, hcnt2⟩ := h2
    have hparts := appendIfNew_parts ((st.withMove cell).mark_safe cell)
      (((st.withMove cell).mark_safe cell).newSentenceFor cell
        (consistentCount M st cell))
    refine ⟨?_, ?_, ?_, sentInv_appendIfNew _ _ hsent2 ?_, ?_⟩
    · rw [hparts.1, hparts.2.1]
      exact hb2
    · rw [hparts.2.2.2.2.1]
      exact hm2
    · rw [hparts.2.2.2.1]
      exact hsd2
    · constructor
      · rw [Finset.eq_empty_iff_forall_not_mem]
        intro x hx
        rw [Finset.mem_inter] at hx
        exact (newSentenceFor_cells _ cell _ x hx.1).2.1 hx.2
      · rw [Finset.eq_empty_iff_forall_not_mem]
        intro x hx
        rw [Finset.mem_inter] at hx
        exact (newSentenceFor_cells _ cell _ x hx.1).1 hx.2
    · intro s hs
      rcases (appendIfNew_parts _ _).2.2.2.2.2 s hs with hs1 | hs1
      · exact hcnt2 s hs1
      · rw [hs1]
        exact hns_count
  unfold MinesweeperAI.addKnowledgeStage1
  obtain ⟨hb3, hm3, hsd3, hsent3, hcnt3⟩ := h3
  refine ⟨hb3, hm3, hsd3, sentInv_purgeCell _ cell hsent3, ?_⟩
  intro s hs
  rcases List.mem_map.mp hs with ⟨t, ht, rfl⟩
  have hcellsafe : cell ∈ (((st.withMove cell).mark_safe cell).appendIfNew
      (((st.withMove cell).mark_safe cell).newSentenceFor cell
        (consistentCount M st cell))).safes := by
    rw [(appendIfNew_parts _ _).2.2.2.1, (mark_safe_parts _ _).2.2.2.1]
    exact Finset.mem_insert_self cell _
  have hnot : cell ∉ t.cells := by
    intro hcell2
    exact Finset.eq_empty_iff_forall_not_mem.mp (hsent3 t ht).2 cell
      (Finset.mem_inter.mpr ⟨hcell2, hcellsafe⟩)
  rw [Finset.erase_eq_of_not_mem hnot]
  exact hcnt3 t ht

theorem consInv_add_knowledge (M : Finset Cell) (st : MinesweeperAI) (c : Cell)
    (h : ConsInv M st) (hc : c ∉ M) :
    ∀ st' : MinesweeperAI,
      st.add_knowledge c (consistentCount M st c) = some st' → ConsInv M st' := by
  intro st' heq
  have h1 := consInv_addKnowledgeStage1 M st c h hc
  have h2 := consInv_markSelsRemoved M _ h1
  have h3 := consInv_addKnowledgeResolved M _ h2
  have h4 := consInv_markSelsRemoved M _ h3
  have heq2 := (add_knowledge_some_of_sentInv st c (consistentCount M st c)
    h.2.2.2.1).1
  exact Option.some.inj (heq2.symm.trans heq) ▸ h4

theorem reachableC_consInv (M : Finset Cell) :
    ∀ st : MinesweeperAI, ReachableC M st → ConsInv M st := by
  intro st h
  induction h with
  | start height width hM =>
    refine ⟨hM, ?_, ?_, ?_, ?_⟩
    · intro x hx
      exact absurd hx (Finset.not_mem_empty x)
    · rfl
    · intro s hs
      exact absurd hs (List.not_mem_nil s)
    · intro s hs
      exact absurd hs (List.not_mem_nil s)
  | mark_mine c hc _ ih => exact consInv_mark_mine c ih hc
  | mark_safe c hc _ ih => exact consInv_mark_safe c ih hc
  | add_knowledge c hc _ heq ih => exact consInv_add_knowledge M _ c ih hc _ heq

/-- C5, amended: the sentence invariant 0 <= count <= len(cells) holds for
every knowledge-base state reachable under the spec's caller contract:
there is a fixed in-bounds ground-truth mine set M, every revealed cell is
not in M and is revealed together with its true nearby-mine count, external
mark_mine calls name true mines and external mark_safe calls name true
non-mines.  (For arbitrary integer counts the claim is false: see the
counterexample, where one inconsistent reveal produces count -1.) -/
theorem c5_consistent_sentence_invariant :
    ∀ (M : Finset Cell) (st : MinesweeperAI), ReachableC M st →
    ∀ s ∈ st.knowledge, 0 ≤ s.count ∧ s.count ≤ (s.cells.card : Int) := by
  intro M st h s hs
  have hcnt := (reachableC_consInv M st h).2.2.2.2 s hs
  have hle : (s.cells ∩ M).card ≤ s.cells.card :=
    Finset.card_le_card Finset.inter_subset_left
  omega

/-- C5, witness: one consistent reveal on a 2x2 board whose only mine is
(1,1); every sentence of the resulting knowledge base (the single sentence
over the three neighbours of (0,0) with count 1) satisfies the invariant. -/
theorem c5_consistent_sentence_invariant_witness :
    (c5Good.knowledge.all fun s =>
      decide (0 ≤ s.count ∧ s.count ≤ (s.cells.card : Int))) = true := by
  rw [List.all_eq_true]
  intro s hs
  exact decide_eq_true
    (c5_consistent_sentence_invariant {((1 : Int), (1 : Int))} c5Good
      (ReachableC.add_knowledge (0, 0) (by decide) (ReachableC.start 2 2 (by decide))
        (show (initialAI 2 2).add_knowledge (0, 0)
            (consistentCount {((1 : Int), (1 : Int))} (initialAI 2 2) (0, 0)) =
          some c5Good by decide))
      s hs)
